import Mathlib

/-!
Verification of the `data_tools` module: a path-based accessor engine for
nested collections (ordered mappings, sequences, scalar leaves).

The Python source is shallowly embedded:
* Python values are `Node` (dict / list / scalar leaf); dicts are ordered
  association structures `KVs`, lists are `Nodes`, and scalar leaves are
  `PrimVal` (int, str, bool, None).  Strings are embedded as Lean `String`.
* Python exceptions are the error type `Err`; fallible operations return
  `Except Err Node`.  `KeyError` is `keyErr`, `IndexError` is `idxErr`,
  `TypeError` is `typeErr`, and the three distinct `ValueError` raise sites
  (`"path must not be empty"`, `"invalid root"`, `"invalid path"`) are
  `emptyPath`, `invalidRoot`, `invalidPath`.
* In-place mutation is embedded by functional rebuilding along the traversed
  path (the structures are trees; the source never relies on aliasing).
* The lazy generator `flatten` is embedded as the finite list of the pairs it
  yields, produced by a breadth-first queue loop.
-/

namespace DataTools

/-- Path segment: a mapping key (`str`), a sequence index (`int`), or the
distinguished wildcard object (Python `...`, the default `WILDCARD_OBJ`). -/
inductive Seg where
  | s : String → Seg
  | i : Int → Seg
  | wild
deriving DecidableEq

/-- Scalar leaf values: Python ints, strings, bools and `None`. -/
inductive PrimVal where
  | int : Int → PrimVal
  | str : String → PrimVal
  | bool : Bool → PrimVal
  | none
deriving DecidableEq

mutual
/-- A nested collection: a dict (`Mapping`), a list (non-string `Iterable`)
or a scalar leaf. -/
inductive Node where
  | map : KVs → Node
  | seq : Nodes → Node
  | leaf : PrimVal → Node
/-- Insertion-ordered association structure embedding a Python dict. -/
inductive KVs where
  | nil : KVs
  | cons : Seg → Node → KVs → KVs
/-- A Python list of nodes. -/
inductive Nodes where
  | nil : Nodes
  | cons : Node → Nodes → Nodes
end

/-- Error kinds: the exception classes raised by the module.  The three
`ValueError` raise sites are distinguished by their message. -/
inductive Err where
  | keyErr | idxErr | typeErr | emptyPath | invalidRoot | invalidPath
deriving DecidableEq

namespace KVs

/-- Dict lookup `d[key]` (first matching key; a real dict has unique keys). -/
def get : KVs → Seg → Option Node
  | .nil, _ => Option.none
  | .cons k v r, key => if k = key then some v else get r key

/-- Dict assignment `d[key] = v`: replace in place if the key is present
(keeping its position), otherwise append at the end (insertion order). -/
def set : KVs → Seg → Node → KVs
  | .nil, key, v => .cons key v .nil
  | .cons k w r, key, v => if k = key then .cons k v r else .cons k w (set r key v)

/-- Dict deletion `del d[key]`; `none` models `KeyError`. -/
def del : KVs → Seg → Option KVs
  | .nil, _ => Option.none
  | .cons k w r, key => if k = key then some r else (del r key).map (KVs.cons k w)

def hasKey (kvs : KVs) (key : Seg) : Bool := (kvs.get key).isSome

def append : KVs → KVs → KVs
  | .nil, b => b
  | .cons k v r, b => .cons k v (append r b)

def keys : KVs → List Seg
  | .nil => []
  | .cons k _ r => k :: keys r

end KVs

namespace Nodes

def length : Nodes → Nat
  | .nil => 0
  | .cons _ r => length r + 1

/-- List read `xs[r]` at a nonnegative resolved index. -/
def get : Nodes → Nat → Option Node
  | .nil, _ => Option.none
  | .cons x _, 0 => some x
  | .cons _ r, n+1 => get r n

/-- List assignment `xs[r] = v` at a nonnegative resolved in-range index
(out-of-range leaves the list unchanged; callers only use it in range). -/
def set : Nodes → Nat → Node → Nodes
  | .nil, _, _ => .nil
  | .cons _ r, 0, v => .cons v r
  | .cons x r, n+1, v => .cons x (set r n v)

/-- List `xs.append(v)`. -/
def snoc : Nodes → Node → Nodes
  | .nil, v => .cons v .nil
  | .cons x r, v => .cons x (snoc r v)

/-- List deletion `del xs[r]` at a resolved in-range index. -/
def eraseIdx : Nodes → Nat → Nodes
  | .nil, _ => .nil
  | .cons _ r, 0 => r
  | .cons x r, n+1 => .cons x (eraseIdx r n)

def append : Nodes → Nodes → Nodes
  | .nil, b => b
  | .cons x r, b => .cons x (append r b)

end Nodes

/-- Python negative-index resolution for a container of length `len`:
a negative index counts from the end; `none` models `IndexError`. -/
def resolveIdx (n : Int) (len : Nat) : Option Nat :=
  let r := if n < 0 then n + len else n
  if 0 ≤ r ∧ r < len then some r.toNat else Option.none

/-- One subscription step `obj[key]`, with CPython's error kinds:
dict lookup raises `KeyError` for a missing key (of any type); list
subscription raises `IndexError` out of range but `TypeError` for a
non-integer index; strings are subscriptable by integers (yielding a
one-character string); all other scalars raise `TypeError`. -/
def pyGetItem : Node → Seg → Except Err Node
  | .map kvs, key =>
    match kvs.get key with
    | some v => .ok v
    | _ => .error .keyErr
  | .seq xs, .i n =>
    match resolveIdx n xs.length with
    | some r =>
      match xs.get r with
      | some v => .ok v
      | _ => .error .idxErr
    | _ => .error .idxErr
  | .seq _, _ => .error .typeErr
  | .leaf (.str str), .i n =>
    match resolveIdx n str.toList.length with
    | some r => .ok (.leaf (.str (String.mk ((str.toList.drop r).take 1))))
    | _ => .error .idxErr
  | .leaf _, _ => .error .typeErr

/-- The `_traverse` helper: resolve each path segment in turn, propagating
lookup errors unchanged. -/
def traverse : Node → List Seg → Except Err Node
  | obj, [] => .ok obj
  | obj, k :: rest =>
    match pyGetItem obj k with
    | .ok c => traverse c rest
    | .error e => .error e

/-- Plain assignment `cur[key] = v` (no append policy): dict assignment
always succeeds; list assignment needs an in-range (possibly negative)
integer index; scalars (including strings) raise `TypeError`. -/
def pySetItem : Node → Seg → Node → Except Err Node
  | .map kvs, key, v => .ok (.map (kvs.set key v))
  | .seq xs, .i n, v =>
    match resolveIdx n xs.length with
    | some r => .ok (.seq (xs.set r v))
    | _ => .error .idxErr
  | .seq _, _, _ => .error .typeErr
  | .leaf _, _, _ => .error .typeErr

/-- The final assignment performed by `set`: `cur[path[-1]] = value`, and on
`IndexError`, append instead when the final segment equals `len(cur)`. -/
def setItem (cur : Node) (k : Seg) (v : Node) : Except Err Node :=
  match pySetItem cur k v with
  | .error .idxErr =>
    match cur, k with
    | .seq xs, .i n =>
      if n = (xs.length : Int) then .ok (.seq (xs.snoc v)) else .error .idxErr
    | _, _ => .error .idxErr
  | r => r

/-- Core of `set` on an already-parsed path: traverse to the parent of the
final segment and apply `setItem` there, rebuilding along the way.  The
empty parsed path models `path[-1]` raising `IndexError` on an empty tuple
(see `set`'s `except IndexError` handler, which re-raises it). -/
def setCore : Node → List Seg → Node → Except Err Node
  | _, [], _ => .error .idxErr
  | obj, [k], v => setItem obj k v
  | obj, k :: k2 :: rest, v =>
    match pyGetItem obj k with
    | .error e => .error e
    | .ok c =>
      match setCore c (k2 :: rest) v with
      | .error e => .error e
      | .ok c2 => pySetItem obj k c2

/-- `set(obj, path, value)` on a structured (already parsed) path. -/
def set (obj : Node) (path : List Seg) (v : Node) : Except Err Node :=
  if path.isEmpty then .error .emptyPath else setCore obj path v

/-- `get(obj, path, default)` on a structured path; `dflt = none` models the
`_undefined` sentinel (no default supplied). -/
def get (obj : Node) (path : List Seg) (dflt : Option Node) : Except Err Node :=
  if path.isEmpty then .ok obj
  else
    match traverse obj path with
    | .ok v => .ok v
    | .error .keyErr =>
      match dflt with
      | some d => .ok d
      | _ => .error .keyErr
    | .error .idxErr =>
      match dflt with
      | some d => .ok d
      | _ => .error .idxErr
    | .error e => .error e

/-- Deletion step `del cur[key]`. -/
def delItem : Node → Seg → Except Err Node
  | .map kvs, key =>
    match kvs.del key with
    | some kvs2 => .ok (.map kvs2)
    | _ => .error .keyErr
  | .seq xs, .i n =>
    match resolveIdx n xs.length with
    | some r => .ok (.seq (xs.eraseIdx r))
    | _ => .error .idxErr
  | .seq _, _ => .error .typeErr
  | .leaf _, _ => .error .typeErr

/-- Core of `delete` on a structured path. -/
def delCore : Node → List Seg → Except Err Node
  | _, [] => .error .idxErr
  | obj, [k] => delItem obj k
  | obj, k :: k2 :: rest =>
    match pyGetItem obj k with
    | .error e => .error e
    | .ok c =>
      match delCore c (k2 :: rest) with
      | .error e => .error e
      | .ok c2 => pySetItem obj k c2

/-- `delete(obj, path)` on a structured path. -/
def delete (obj : Node) (path : List Seg) : Except Err Node :=
  if path.isEmpty then .error .emptyPath else delCore obj path

/-- Core of `update`: read the current value at the final segment, apply the
transform, and write back with plain assignment (never appending). -/
def updCore : Node → List Seg → (Node → Node) → Except Err Node
  | _, [], _ => .error .idxErr
  | obj, [k], f =>
    match pyGetItem obj k with
    | .error e => .error e
    | .ok old => pySetItem obj k (f old)
  | obj, k :: k2 :: rest, f =>
    match pyGetItem obj k with
    | .error e => .error e
    | .ok c =>
      match updCore c (k2 :: rest) f with
      | .error e => .error e
      | .ok c2 => pySetItem obj k c2

/-- `update(obj, path, func)` on a structured path. -/
def update (obj : Node) (path : List Seg) (f : Node → Node) : Except Err Node :=
  if path.isEmpty then .error .emptyPath else updCore obj path f

/-- Convenience constructor for writing dict literals. -/
def KVs.ofList : List (Seg × Node) → KVs
  | [] => .nil
  | kv :: r => .cons kv.1 kv.2 (KVs.ofList r)

/-- Convenience constructor for writing list literals. -/
def Nodes.ofList : List Node → Nodes
  | [] => .nil
  | x :: r => .cons x (Nodes.ofList r)

/-- Tail of CPython base-10 digit parsing: value of a digit string, `none`
when a non-digit appears.  The empty tail is accepted here; `digitsVal`
rejects the fully-empty string. -/
def digitsValAux (acc : Nat) : List Char → Option Nat
  | [] => some acc
  | c :: r =>
    if c.isDigit then digitsValAux (acc * 10 + (c.toNat - 48)) r else Option.none

/-- Value of a nonempty all-digit string. -/
def digitsVal : List Char → Option Nat
  | [] => Option.none
  | cs => digitsValAux 0 cs

/-- CPython `int(part)` as used on path segments: an optional sign followed
by base-10 digits (the leading/trailing-whitespace and underscore forms that
`int` also accepts never occur in a single path segment produced by
splitting, and are not modelled); `none` models `ValueError`. -/
def pyInt : List Char → Option Int
  | [] => Option.none
  | c :: r =>
    if c = '-' then (digitsVal r).map (fun n => -(n : Int))
    else if c = '+' then (digitsVal r).map (fun n => (n : Int))
    else (digitsVal (c :: r)).map (fun n => (n : Int))

/-- Classification of one nonempty part split off by `parse`: strip a full
quote wrapping (first char = last char = a recognized quote), else replace a
wildcard token, else try `int(part)`, else keep the string. -/
def classifyPart (quotes : List Char) (wc : Option Char) (part : List Char) : Seg :=
  if quotes.contains (part.headD ' ') ∧ part.headD ' ' = part.getLastD ' ' then
    Seg.s (String.mk ((part.drop 1).dropLast))
  else if (match wc with | some w => part == [w] | _ => false) then
    Seg.wild
  else
    match pyInt part with
    | some n => Seg.i n
    | _ => Seg.s (String.mk part)

/-- The scanning loop of `parse`: `ext` is the input extended with one
trailing separator; the loop walks the suffix of `ext` from position `i`,
tracking the start of the current part (`last + 1` in the source) and the
open-quote state; parts are accumulated in reverse. -/
def parseGo (sep : Char) (quotes : List Char) (wc : Option Char) (ext : List Char) :
    List Char → Nat → Nat → Option Char → List Seg → List Seg
  | [], _, _, _, acc => acc.reverse
  | c :: cs, i, start, quote, acc =>
    if c = sep ∧ quote = Option.none then
      let part := (ext.drop start).take (i - start)
      let acc2 := if part.isEmpty then acc else classifyPart quotes wc part :: acc
      parseGo sep quotes wc ext cs (i + 1) (i + 1) Option.none acc2
    else if quote = Option.none ∧ quotes.contains c then
      parseGo sep quotes wc ext cs (i + 1) start (some c) acc
    else if quote = some c then
      parseGo sep quotes wc ext cs (i + 1) start Option.none acc
    else
      parseGo sep quotes wc ext cs (i + 1) start quote acc

/-- The default recognized quote characters `"` and `'` (written as
`Char.ofNat 34` / `Char.ofNat 39`). -/
def defQuotes : List Char := [Char.ofNat 34, Char.ofNat 39]

/-- `parse(path, sep_chr, quote_chr, wildcard_chr)`.  The configuration is
embedded as `Char`/`Option Char`, so the source's single-character
validations hold by construction. -/
def parse (path : String) (sep : Char) (quoteChr : Option Char)
    (wildcardChr : Option Char) : List Seg :=
  let quotes := match quoteChr with
    | some q => [q]
    | _ => defQuotes
  let ext := path.toList ++ [sep]
  parseGo sep quotes wildcardChr ext ext 0 0 Option.none []

/-- Default-configuration `parse` (separator `.`, default quotes, no
wildcard character), as used by autoparse with no extra arguments. -/
def parseD (path : String) : List Seg := parse path '.' Option.none Option.none

/-- `set` called with a string path under autoparse: the emptiness check
`if not path` inspects the raw string before parsing. -/
def setStr (obj : Node) (path : String) (v : Node) : Except Err Node :=
  if path = "" then .error .emptyPath else setCore obj (parseD path) v

/-- `delete` called with a string path under autoparse. -/
def deleteStr (obj : Node) (path : String) : Except Err Node :=
  if path = "" then .error .emptyPath else delCore obj (parseD path)

/-- `update` called with a string path under autoparse. -/
def updateStr (obj : Node) (path : String) (f : Node → Node) : Except Err Node :=
  if path = "" then .error .emptyPath else updCore obj (parseD path) f

/-- The `_match` worker on parsed values: walk the pattern against the path
pairwise; a wildcard pattern segment matches any one path segment; if the
path runs out first the pattern cannot match; once the pattern is exhausted
a prefix match succeeds and a full match also needs the path exhausted. -/
def matchOne : List Seg → List Seg → Bool → Bool
  | path, [], full =>
    match path with
    | [] => true
    | _ :: _ => !full
  | [], _ :: _, _ => false
  | c :: cs, p :: ps, full =>
    match p with
    | .wild => matchOne cs ps full
    | p2 => if p2 = c then matchOne cs ps full else false

/-- `match(path, *patterns)` on parsed values (prefix semantics, OR over the
patterns). -/
def match' (path : List Seg) (patterns : List (List Seg)) : Bool :=
  patterns.any (fun pat => matchOne path pat false)

/-- `fullmatch(path, *patterns)` on parsed values. -/
def fullmatch (path : List Seg) (patterns : List (List Seg)) : Bool :=
  patterns.any (fun pat => matchOne path pat true)

/-- The fresh empty container `obj.__class__()` emitted for a non-leaf node
(a leaf is emitted as its own value). -/
def emitVal : Node → Node
  | .map _ => .map .nil
  | .seq _ => .seq .nil
  | .leaf v => .leaf v

/-- Children of a dict node, each paired with its extended path, in
insertion order. -/
def kvChildren (p : List Seg) : KVs → List (List Seg × Node)
  | .nil => []
  | .cons k v r => (p ++ [k], v) :: kvChildren p r

/-- Children of a list node, each paired with its extended (enumerated)
path. -/
def seqChildren (p : List Seg) (start : Nat) : Nodes → List (List Seg × Node)
  | .nil => []
  | .cons x r => (p ++ [Seg.i (start : Int)], x) :: seqChildren p (start + 1) r

/-- The children a node enqueues during the breadth-first walk. -/
def childEntries (p : List Seg) : Node → List (List Seg × Node)
  | .map kvs => kvChildren p kvs
  | .seq xs => seqChildren p 0 xs
  | .leaf _ => []

mutual
/-- Number of nodes of a tree (used as the step count of the breadth-first
loop: each iteration pops exactly one node). -/
def nsize : Node → Nat
  | .map kvs => 1 + ksize kvs
  | .seq xs => 1 + lsize xs
  | .leaf _ => 1
def ksize : KVs → Nat
  | .nil => 0
  | .cons _ v r => nsize v + ksize r
def lsize : Nodes → Nat
  | .nil => 0
  | .cons x r => nsize x + lsize r
end

/-- Total node count of a queue. -/
def qsize (q : List (List Seg × Node)) : Nat := (q.map (fun e => nsize e.2)).sum

/-- Python truthiness of a node (`not obj`): empty containers, `0`, the
empty string, `False` and `None` are falsy. -/
def falsy : Node → Bool
  | .map .nil => true
  | .map _ => false
  | .seq .nil => true
  | .seq _ => false
  | .leaf (.int n) => n == 0
  | .leaf (.str str) => str == ""
  | .leaf (.bool b) => !b
  | .leaf .none => true

/-- The breadth-first queue loop of `flatten`, with an explicit step budget
(structural recursion device; `qsize` of the queue is exactly the number of
iterations, see `bfsF_fuel_irrel` and the `bfs_*` equations below). -/
def bfsF (ol : Bool) : Nat → List (List Seg × Node) → List (List Seg × Node)
  | 0, _ => []
  | _, [] => []
  | fuel + 1, (p, Node.map kvs) :: rest =>
    (if ol then [] else [(p, Node.map .nil)]) ++
      bfsF ol fuel (rest ++ childEntries p (.map kvs))
  | fuel + 1, (p, Node.seq xs) :: rest =>
    (if ol then [] else [(p, Node.seq .nil)]) ++
      bfsF ol fuel (rest ++ childEntries p (.seq xs))
  | fuel + 1, (p, Node.leaf v) :: rest => (p, Node.leaf v) :: bfsF ol fuel rest

/-- The breadth-first walk on an initial queue. -/
def bfs (ol : Bool) (q : List (List Seg × Node)) : List (List Seg × Node) :=
  bfsF ol (qsize q) q

/-- `flatten(obj, only_leaves)`: the list of pairs the generator yields.  A
falsy root yields nothing. -/
def flatten (obj : Node) (ol : Bool) : List (List Seg × Node) :=
  if falsy obj then [] else bfs ol [([], obj)]

/-- Stable insertion (ascending path length) used by `sortByLen`. -/
def insertByLen (x : List Seg × Node) : List (List Seg × Node) → List (List Seg × Node)
  | [] => [x]
  | y :: ys => if y.1.length < x.1.length then y :: insertByLen x ys else x :: y :: ys

/-- Stable sort by ascending path length, embedding
`sorted(paths, key=lambda x: len(x[0]))`. -/
def sortByLen : List (List Seg × Node) → List (List Seg × Node)
  | [] => []
  | x :: xs => insertByLen x (sortByLen xs)

/-- The replay loop of `unflatten`: each entry after the first must have a
path of length at least 1 and is applied with `set`. -/
def replay (obj : Node) : List (List Seg × Node) → Except Err Node
  | [] => .ok obj
  | (p, v) :: rest =>
    if p.length < 1 then .error .invalidPath
    else
      match set obj p v with
      | .ok obj2 => replay obj2 rest
      | .error e => .error e

/-- `unflatten(paths, sort)`: empty input returns `None`; else the first
entry must carry the empty path (it becomes the root) and the remaining
entries are replayed with `set`. -/
def unflatten (entries : List (List Seg × Node)) (srt : Bool) : Except Err Node :=
  match (if srt then sortByLen entries else entries) with
  | [] => .ok (.leaf .none)
  | (root, base) :: rest =>
    if root.length ≠ 0 then .error .invalidRoot else replay base rest

def nodupKeys : KVs → Bool
  | .nil => true
  | .cons k _ r => !(r.hasKey k) && nodupKeys r

mutual
/-- Well-formedness of an embedded structure: every dict has pairwise
distinct keys (automatic for a real Python dict, where keys are unique). -/
def wf : Node → Bool
  | .map kvs => nodupKeys kvs && wfK kvs
  | .seq xs => wfL xs
  | .leaf _ => true
def wfK : KVs → Bool
  | .nil => true
  | .cons _ v r => wf v && wfK r
def wfL : Nodes → Bool
  | .nil => true
  | .cons x r => wf x && wfL r
end

def isContainer : Node → Bool
  | .map _ => true
  | .seq _ => true
  | .leaf _ => false

/-- Spec-side notion of "path reachable in S": every segment resolves, and
every resolution starts from a Mapping or Sequence node (the spec's data
model treats strings as atomic leaves, never as character sequences). -/
def validPath : Node → List Seg → Bool
  | _, [] => true
  | obj, k :: rest =>
    isContainer obj &&
      (match pyGetItem obj k with
       | .ok c => validPath c rest
       | .error _ => false)

/-- All keys of a dict are strings (the spec's Mapping data model). -/
def strKeys : KVs → Bool
  | .nil => true
  | .cons k _ r => (match k with | .s _ => true | _ => false) && strKeys r

/-- Spec-side single-segment match: a Wildcard matches any one segment, a
concrete segment must compare equal. -/
def specSegMatch : Seg → Seg → Bool
  | .wild, _ => true
  | p, c => p == c

/-- Spec-side "pattern matches a prefix of the path": the pattern is no
longer than the path and matches it pairwise. -/
def specPrefixMatch (pat path : List Seg) : Bool :=
  decide (pat.length ≤ path.length) &&
    (List.zip pat path).all (fun pc => specSegMatch pc.1 pc.2)

/-- Spec-side "pattern matches the entire path". -/
def specFullMatch (pat path : List Seg) : Bool :=
  (pat.length == path.length) &&
    (List.zip pat path).all (fun pc => specSegMatch pc.1 pc.2)

/-- The emitted form of a queue of nodes (the pair `flatten` yields for each
node when `only_leaves` is false). -/
def emits (q : List (List Seg × Node)) : List (List Seg × Node) :=
  q.map (fun e => (e.1, emitVal e.2))

/-- All children enqueued by one breadth-first level. -/
def childrenAll (q : List (List Seg × Node)) : List (List Seg × Node) :=
  (q.map (fun e => childEntries e.1 e.2)).flatten

/-- Replay of entries with `setCore` (the paths of every entry replayed by
`unflatten` are nonempty, where this agrees with `replay`). -/
def replayF (obj : Node) : List (List Seg × Node) → Except Err Node
  | [] => .ok obj
  | (p, v) :: rest =>
    match setCore obj p v with
    | .ok obj2 => replayF obj2 rest
    | .error e => .error e

mutual
/-- Truncation of a tree at depth `d`: the partial tree reconstructed after
replaying the flattened entries of depths `0 .. d` (containers at depth `d`
are still empty; leaves carry their values). -/
def trunc : Nat → Node → Node
  | _, .leaf v => .leaf v
  | 0, .map _ => .map .nil
  | 0, .seq _ => .seq .nil
  | d + 1, .map kvs => .map (truncK d kvs)
  | d + 1, .seq xs => .seq (truncL d xs)
def truncK : Nat → KVs → KVs
  | _, .nil => .nil
  | d, .cons k v r => .cons k (trunc d v) (truncK d r)
def truncL : Nat → Nodes → Nodes
  | _, .nil => .nil
  | d, .cons x r => .cons (trunc d x) (truncL d r)
end

/-- The queue entries at depth `d` below a node whose own path is `p`, in
breadth-first sibling order. -/
def nodesAt : Nat → List Seg → Node → List (List Seg × Node)
  | 0, p, n => [(p, n)]
  | d + 1, p, n => ((childEntries p n).map (fun e => nodesAt d e.1 e.2)).flatten

/-- Prefixing every path of an entry list with one leading segment. -/
def shiftE (k : Seg) (es : List (List Seg × Node)) : List (List Seg × Node) :=
  es.map (fun e => (k :: e.1, e.2))

/-- The emitted entries of one breadth-first row below a dict node, grouped
child by child: for each child its depth-`r` entries, paths prefixed with
the child's key. -/
def rowBlocks (r : Nat) : KVs → List (List Seg × Node)
  | .nil => []
  | .cons k c rest => shiftE k (emits (nodesAt r [] c)) ++ rowBlocks r rest

/-- The emitted entries of one breadth-first row below a list node, grouped
child by child starting at index `start`. -/
def rowBlocksL (r : Nat) (start : Nat) : Nodes → List (List Seg × Node)
  | .nil => []
  | .cons c rest =>
    shiftE (Seg.i (start : Int)) (emits (nodesAt r [] c)) ++
      rowBlocksL r (start + 1) rest

/-- The docstring example structure ` {"a": [{"b": 1}, {"b": 2}]} `. -/
def exNested : Node :=
  .map (KVs.ofList [(Seg.s "a", .seq (Nodes.ofList
    [.map (KVs.ofList [(Seg.s "b", .leaf (.int 1))]),
     .map (KVs.ofList [(Seg.s "b", .leaf (.int 2))])]))])

/-- The flattened entries of `exNested` in an out-of-order arrangement
(children before the containers that hold them), from the `unflatten`
docstring. -/
def exOutOfOrder : List (List Seg × Node) :=
  [([], .map .nil),
   ([Seg.s "a", Seg.i 0, Seg.s "b"], .leaf (.int 1)),
   ([Seg.s "a", Seg.i 1, Seg.s "b"], .leaf (.int 2)),
   ([Seg.s "a", Seg.i 0], .map .nil),
   ([Seg.s "a", Seg.i 1], .map .nil),
   ([Seg.s "a"], .seq .nil)]

example :
    get (Node.map (KVs.ofList [(Seg.s "a",
        Node.seq (Nodes.ofList [Node.leaf (.int 10), Node.leaf (.int 20)]))]))
      [Seg.s "a", Seg.i 1] Option.none = .ok (Node.leaf (.int 20)) := rfl

example :
    set (Node.map (KVs.ofList [(Seg.s "a", Node.seq .nil)])) [Seg.s "a", Seg.i 0]
      (Node.leaf (.int 7)) =
    .ok (Node.map (KVs.ofList [(Seg.s "a",
      Node.seq (Nodes.ofList [Node.leaf (.int 7)]))])) := rfl

example :
    update (Node.map (KVs.ofList [(Seg.s "a", Node.seq .nil)])) [Seg.s "a", Seg.i 0]
      id = .error .idxErr := rfl

example : traverse (Node.seq .nil) [Seg.s "a"] = .error .typeErr := rfl

example :
    get (Node.map (KVs.ofList [(Seg.s "a",
        Node.seq (Nodes.ofList [Node.leaf (.int 10), Node.leaf (.int 20)]))]))
      [Seg.s "a", Seg.i (-1)] Option.none = .ok (Node.leaf (.int 20)) := rfl

/-! ### Induction principles for the mutually defined structure types -/

theorem KVs.indOn {P : KVs → Prop} (kvs : KVs) (nil : P .nil)
    (cons : ∀ k v r, P r → P (.cons k v r)) : P kvs :=
  match kvs with
  | .nil => nil
  | .cons k v r => cons k v r (KVs.indOn r nil cons)

theorem Nodes.nindOn {P : Nodes → Prop} (xs : Nodes) (nil : P .nil)
    (cons : ∀ x r, P r → P (.cons x r)) : P xs :=
  match xs with
  | .nil => nil
  | .cons x r => cons x r (Nodes.nindOn r nil cons)

mutual
theorem Node.indAux {P : Node → Prop} {Q : KVs → Prop} {R : Nodes → Prop}
    (hmap : ∀ kvs, Q kvs → P (.map kvs)) (hseq : ∀ xs, R xs → P (.seq xs))
    (hleaf : ∀ v, P (.leaf v)) (hknil : Q .nil)
    (hkcons : ∀ k v r, P v → Q r → Q (.cons k v r)) (hlnil : R .nil)
    (hlcons : ∀ x r, P x → R r → R (.cons x r)) : ∀ n, P n
  | .map kvs =>
    hmap kvs (KVs.kindAux hmap hseq hleaf hknil hkcons hlnil hlcons kvs)
  | .seq xs =>
    hseq xs (Nodes.nindAux hmap hseq hleaf hknil hkcons hlnil hlcons xs)
  | .leaf v => hleaf v
theorem KVs.kindAux {P : Node → Prop} {Q : KVs → Prop} {R : Nodes → Prop}
    (hmap : ∀ kvs, Q kvs → P (.map kvs)) (hseq : ∀ xs, R xs → P (.seq xs))
    (hleaf : ∀ v, P (.leaf v)) (hknil : Q .nil)
    (hkcons : ∀ k v r, P v → Q r → Q (.cons k v r)) (hlnil : R .nil)
    (hlcons : ∀ x r, P x → R r → R (.cons x r)) : ∀ kvs, Q kvs
  | .nil => hknil
  | .cons k v r =>
    hkcons k v r (Node.indAux hmap hseq hleaf hknil hkcons hlnil hlcons v)
      (KVs.kindAux hmap hseq hleaf hknil hkcons hlnil hlcons r)
theorem Nodes.nindAux {P : Node → Prop} {Q : KVs → Prop} {R : Nodes → Prop}
    (hmap : ∀ kvs, Q kvs → P (.map kvs)) (hseq : ∀ xs, R xs → P (.seq xs))
    (hleaf : ∀ v, P (.leaf v)) (hknil : Q .nil)
    (hkcons : ∀ k v r, P v → Q r → Q (.cons k v r)) (hlnil : R .nil)
    (hlcons : ∀ x r, P x → R r → R (.cons x r)) : ∀ xs, R xs
  | .nil => hlnil
  | .cons x r =>
    hlcons x r (Node.indAux hmap hseq hleaf hknil hkcons hlnil hlcons x)
      (Nodes.nindAux hmap hseq hleaf hknil hkcons hlnil hlcons r)
end

/-- Simultaneous structural induction over nodes, dict entry lists and node
lists. -/
theorem Node.mutualInd {P : Node → Prop} {Q : KVs → Prop} {R : Nodes → Prop}
    (hmap : ∀ kvs, Q kvs → P (.map kvs)) (hseq : ∀ xs, R xs → P (.seq xs))
    (hleaf : ∀ v, P (.leaf v)) (hknil : Q .nil)
    (hkcons : ∀ k v r, P v → Q r → Q (.cons k v r)) (hlnil : R .nil)
    (hlcons : ∀ x r, P x → R r → R (.cons x r)) :
    (∀ n, P n) ∧ (∀ kvs, Q kvs) ∧ (∀ xs, R xs) :=
  ⟨Node.indAux hmap hseq hleaf hknil hkcons hlnil hlcons,
   KVs.kindAux hmap hseq hleaf hknil hkcons hlnil hlcons,
   Nodes.nindAux hmap hseq hleaf hknil hkcons hlnil hlcons⟩

/-! ### Basic lemmas about the container operations -/

theorem KVs.get_set_self (kvs : KVs) (k : Seg) (v : Node) :
    (kvs.set k v).get k = some v := by
  induction kvs using KVs.indOn with
  | nil => simp [KVs.set, KVs.get]
  | cons k2 w r ih =>
    by_cases h : k2 = k
    · simp [KVs.set, h, KVs.get]
    · simp [KVs.set, h, KVs.get, ih]

theorem KVs.get_set_ne (kvs : KVs) (k k2 : Seg) (v : Node) (h : k2 ≠ k) :
    (kvs.set k v).get k2 = kvs.get k2 := by
  induction kvs using KVs.indOn with
  | nil =>
    have hne : ¬ k = k2 := fun hh => h hh.symm
    simp [KVs.set, KVs.get, hne]
  | cons k3 w r ih =>
    simp only [KVs.set]
    by_cases h3 : k3 = k
    · rw [if_pos h3]
      have hne : ¬ k3 = k2 := fun hh => h (by rw [← hh, h3])
      simp [KVs.get, hne]
    · rw [if_neg h3]
      simp [KVs.get, ih]

theorem KVs.set_set_self (kvs : KVs) (k : Seg) (v w : Node) :
    (kvs.set k v).set k w = kvs.set k w := by
  induction kvs using KVs.indOn with
  | nil => simp [KVs.set]
  | cons k2 u r ih =>
    by_cases h : k2 = k <;> simp [KVs.set, h, ih]

theorem KVs.set_of_get (kvs : KVs) (k : Seg) (v : Node) (h : kvs.get k = some v) :
    kvs.set k v = kvs := by
  induction kvs using KVs.indOn with
  | nil => simp [KVs.get] at h
  | cons k2 w r ih =>
    by_cases h2 : k2 = k
    · subst h2
      simp [KVs.get] at h
      simp [KVs.set, h]
    · simp [KVs.get, h2] at h
      simp [KVs.set, h2, ih h]

theorem Nodes.length_set (xs : Nodes) (r : Nat) (v : Node) :
    (xs.set r v).length = xs.length := by
  induction xs using Nodes.nindOn generalizing r with
  | nil => simp [Nodes.set]
  | cons x t ih =>
    cases r with
    | zero => simp [Nodes.set, Nodes.length]
    | succ r2 => simp [Nodes.set, Nodes.length, ih]

theorem Nodes.nget_set_self (xs : Nodes) (r : Nat) (v : Node) (h : r < xs.length) :
    (xs.set r v).get r = some v := by
  induction xs using Nodes.nindOn generalizing r with
  | nil => simp [Nodes.length] at h
  | cons x t ih =>
    cases r with
    | zero => simp [Nodes.set, Nodes.get]
    | succ r2 =>
      simp [Nodes.length] at h
      simp [Nodes.set, Nodes.get]
      exact ih r2 (by omega)

theorem Nodes.get_lt_isSome (xs : Nodes) (r : Nat) (h : r < xs.length) :
    ∃ v, xs.get r = some v := by
  induction xs using Nodes.nindOn generalizing r with
  | nil => simp [Nodes.length] at h
  | cons x t ih =>
    cases r with
    | zero => exact ⟨x, rfl⟩
    | succ r2 =>
      simp only [Nodes.length] at h
      exact ih r2 (by omega)

theorem Nodes.get_isSome_lt (xs : Nodes) (r : Nat) (v : Node) (h : xs.get r = some v) :
    r < xs.length := by
  induction xs using Nodes.nindOn generalizing r with
  | nil => simp [Nodes.get] at h
  | cons x t ih =>
    cases r with
    | zero => simp only [Nodes.length]; omega
    | succ r2 =>
      simp only [Nodes.get] at h
      have := ih r2 h
      simp only [Nodes.length]
      omega

theorem resolveIdx_nat (r len : Nat) (h : r < len) :
    resolveIdx (r : Int) len = some r := by
  simp [resolveIdx]
  omega

/-- An in-range read from a container succeeds, a plain write at the same
key succeeds, and the write is visible to a subsequent read. -/
theorem pySetItem_of_get (obj c : Node) (k : Seg) (hc : isContainer obj = true)
    (hget : pyGetItem obj k = .ok c) (w : Node) :
    ∃ obj2, pySetItem obj k w = .ok obj2 ∧ pyGetItem obj2 k = .ok w ∧
      isContainer obj2 = true := by
  cases obj with
  | map kvs =>
    refine ⟨.map (kvs.set k w), rfl, ?_, rfl⟩
    simp [pyGetItem, KVs.get_set_self]
  | seq xs =>
    cases k with
    | i n =>
      simp only [pyGetItem] at hget
      cases hres : resolveIdx n xs.length with
      | none => simp [hres] at hget
      | some r =>
        simp only [hres] at hget
        cases hg : xs.get r with
        | none => simp [hg] at hget
        | some v =>
          have hr : r < xs.length := Nodes.get_isSome_lt xs r v hg
          refine ⟨.seq (xs.set r w), ?_, ?_, rfl⟩
          · simp [pySetItem, hres]
          · simp [pyGetItem, Nodes.length_set, hres, Nodes.nget_set_self xs r w hr]
    | s str => simp [pyGetItem] at hget
    | wild => simp [pyGetItem] at hget
  | leaf v => simp [isContainer] at hc

/-- Assignment through `setItem` on a scalar never succeeds (strings do not
support item assignment either). -/
theorem setItem_leaf (v : PrimVal) (k : Seg) (w : Node) :
    setItem (.leaf v) k w = .error .typeErr := by
  simp [setItem, pySetItem]

/-- Traversal starting from a string leaf only ever reaches string leaves
(one-character slices). -/
theorem traverse_leaf_str (pre : List Seg) :
    ∀ str r, traverse (.leaf (.str str)) pre = .ok r →
      ∃ str2, r = .leaf (.str str2) := by
  induction pre with
  | nil =>
    intro str r h
    simp only [traverse] at h
    exact ⟨str, by simp_all⟩
  | cons k rest ih =>
    intro str r h
    simp only [traverse] at h
    cases k with
    | i n =>
      simp only [pyGetItem] at h
      cases hres : resolveIdx n str.toList.length with
      | none => rw [hres] at h; simp at h
      | some idx =>
        rw [hres] at h
        exact ih _ r h
    | s s2 => simp [pyGetItem] at h
    | wild => simp [pyGetItem] at h

/-! ### The matcher (`_match`) against the spec-side description -/

theorem matchOne_prefix (pat : List Seg) :
    ∀ path, matchOne path pat false = specPrefixMatch pat path := by
  induction pat with
  | nil =>
    intro path
    cases path <;> simp [matchOne, specPrefixMatch]
  | cons p ps ih =>
    intro path
    cases path with
    | nil => simp [matchOne, specPrefixMatch]
    | cons c cs =>
      cases p with
      | wild =>
        simp [matchOne, specPrefixMatch, ih cs, specSegMatch, Nat.succ_le_succ_iff]
      | s str =>
        by_cases h : Seg.s str = c
        · subst h
          simp [matchOne, specPrefixMatch, ih cs, specSegMatch, Nat.succ_le_succ_iff]
        · simp [matchOne, h, specPrefixMatch, specSegMatch, beq_eq_false_iff_ne.mpr h]
      | i n =>
        by_cases h : Seg.i n = c
        · subst h
          simp [matchOne, specPrefixMatch, ih cs, specSegMatch, Nat.succ_le_succ_iff]
        · simp [matchOne, h, specPrefixMatch, specSegMatch, beq_eq_false_iff_ne.mpr h]

theorem matchOne_full (pat : List Seg) :
    ∀ path, matchOne path pat true = specFullMatch pat path := by
  induction pat with
  | nil =>
    intro path
    cases path <;> simp [matchOne, specFullMatch]
  | cons p ps ih =>
    intro path
    cases path with
    | nil => simp [matchOne, specFullMatch]
    | cons c cs =>
      cases p with
      | wild =>
        simp [matchOne, specFullMatch, ih cs, specSegMatch]
      | s str =>
        by_cases h : Seg.s str = c
        · subst h
          simp [matchOne, specFullMatch, ih cs, specSegMatch]
        · simp [matchOne, h, specFullMatch, specSegMatch, beq_eq_false_iff_ne.mpr h]
      | i n =>
        by_cases h : Seg.i n = c
        · subst h
          simp [matchOne, specFullMatch, ih cs, specSegMatch]
        · simp [matchOne, h, specFullMatch, specSegMatch, beq_eq_false_iff_ne.mpr h]

/-- C8: `match` is true exactly when some pattern matches a prefix of the
path and `fullmatch` exactly when some pattern matches the entire path,
where a Wildcard segment matches any single segment, a concrete segment must
compare equal, and a pattern longer than the path never matches; with the
four concrete cases for path `("a","b","c")`. -/
theorem c8_match_fullmatch :
    (∀ (path : List Seg) (patterns : List (List Seg)),
      match' path patterns = true ↔
        ∃ pat ∈ patterns, specPrefixMatch pat path = true) ∧
    (∀ (path : List Seg) (patterns : List (List Seg)),
      fullmatch path patterns = true ↔
        ∃ pat ∈ patterns, specFullMatch pat path = true) ∧
    match' [Seg.s "a", Seg.s "b", Seg.s "c"] [[Seg.s "a"]] = true ∧
    fullmatch [Seg.s "a", Seg.s "b", Seg.s "c"] [[Seg.s "a"]] = false ∧
    fullmatch [Seg.s "a", Seg.s "b", Seg.s "c"]
      [[Seg.s "a", Seg.wild, Seg.wild]] = true ∧
    fullmatch [Seg.s "a", Seg.s "b", Seg.s "c"]
      [[Seg.s "A", Seg.wild, Seg.wild]] = false := by
  refine ⟨?_, ?_, rfl, rfl, rfl, rfl⟩
  · intro path patterns
    simp [match', List.any_eq_true, matchOne_prefix]
  · intro path patterns
    simp [fullmatch, List.any_eq_true, matchOne_full]

/-! ### Error kinds of traversal (C3) -/

/-- A single subscription step only fails with `KeyError`, `IndexError` or
`TypeError`. -/
theorem pyGetItem_err_kinds (obj : Node) (k : Seg) (e : Err)
    (h : pyGetItem obj k = .error e) :
    e = .keyErr ∨ e = .idxErr ∨ e = .typeErr := by
  unfold pyGetItem at h
  repeat' split at h
  all_goals simp_all

/-- A dict whose keys are all strings has no integer key. -/
theorem KVs.get_int_of_strKeys (kvs : KVs) (n : Int) (h : strKeys kvs = true) :
    kvs.get (Seg.i n) = Option.none := by
  induction kvs using KVs.indOn with
  | nil => rfl
  | cons k v r ih =>
    simp only [strKeys, Bool.and_eq_true] at h
    cases k with
    | s str => simp [KVs.get, ih h.2]
    | i m => simp at h
    | wild => simp at h

/-- C3 counterexample: a string segment against a Sequence fails with
`TypeError`, which is neither `KeyLookupError` nor `IndexLookupError`, so
the lookup-error taxonomy of the claim does not hold and an error kind other
than the two lookup kinds escapes traversal. -/
theorem c3_counterexample :
    traverse (Node.seq .nil) [Seg.s "a"] = .error .typeErr ∧
      Err.typeErr ≠ Err.keyErr ∧ Err.typeErr ≠ Err.idxErr :=
  ⟨rfl, by decide, by decide⟩

/-- C3 amended: a string (or wildcard) segment against a Sequence fails with
`TypeError`; an integer segment against a string-keyed Mapping fails with
`KeyError`; a string segment addressing a non-container fails with
`TypeError` (not `KeyError`); and traversal only ever fails with `KeyError`,
`IndexError` or `TypeError`. -/
theorem c3_traversal_error_kinds :
    (∀ xs str, pyGetItem (Node.seq xs) (Seg.s str) = .error .typeErr) ∧
    (∀ kvs n, strKeys kvs = true →
      pyGetItem (Node.map kvs) (Seg.i n) = .error .keyErr) ∧
    (∀ v k, (match v with | .str _ => False | _ => True) →
      pyGetItem (Node.leaf v) k = .error .typeErr) ∧
    (∀ str s2, pyGetItem (Node.leaf (.str str)) (Seg.s s2) = .error .typeErr) ∧
    (∀ obj path e, traverse obj path = .error e →
      e = .keyErr ∨ e = .idxErr ∨ e = .typeErr) := by
  refine ⟨fun xs str => rfl, ?_, ?_, fun str s2 => rfl, ?_⟩
  · intro kvs n h
    simp [pyGetItem, KVs.get_int_of_strKeys kvs n h]
  · intro v k h
    cases v with
    | str str => simp at h
    | int n => cases k <;> rfl
    | bool b => cases k <;> rfl
    | none => cases k <;> rfl
  · intro obj path
    induction path generalizing obj with
    | nil => intro e h; simp [traverse] at h
    | cons k rest ih =>
      intro e h
      simp only [traverse] at h
      cases hg : pyGetItem obj k with
      | ok c => rw [hg] at h; exact ih c e h
      | error e2 =>
        rw [hg] at h
        simp at h
        subst h
        exact pyGetItem_err_kinds obj k e2 hg

/-- C3 amended witness: concrete instances of each hypothesis-guarded
clause. -/
theorem c3_witness :
    strKeys (KVs.ofList [(Seg.s "a", Node.leaf (.int 1))]) = true ∧
    pyGetItem (Node.map (KVs.ofList [(Seg.s "a", Node.leaf (.int 1))]))
      (Seg.i 0) = .error .keyErr ∧
    pyGetItem (Node.leaf (.int 5)) (Seg.s "a") = .error .typeErr ∧
    traverse (Node.map (KVs.ofList [(Seg.s "a", Node.leaf (.int 1))]))
      [Seg.s "b"] = .error .keyErr ∧
    (Err.keyErr = Err.keyErr ∨ Err.keyErr = Err.idxErr ∨
      Err.keyErr = Err.typeErr) := by
  refine ⟨rfl, ?_, ?_, rfl, ?_⟩
  · exact c3_traversal_error_kinds.2.1 _ 0 rfl
  · exact c3_traversal_error_kinds.2.2.1 (.int 5) (Seg.s "a") trivial
  · exact c3_traversal_error_kinds.2.2.2.2
      (Node.map (KVs.ofList [(Seg.s "a", Node.leaf (.int 1))])) [Seg.s "b"]
      .keyErr rfl

/-! ### Flatten scenarios (C6) -/

/-- C6: `flatten` on the docstring structure yields exactly the breadth-first
entries (container nodes first as fresh empty containers, then deeper
levels), `only_leaves` keeps only the leaf entries, and a falsy root yields
nothing. -/
theorem c6_flatten_bfs :
    flatten exNested false =
      [([], .map .nil),
       ([Seg.s "a"], .seq .nil),
       ([Seg.s "a", Seg.i 0], .map .nil),
       ([Seg.s "a", Seg.i 1], .map .nil),
       ([Seg.s "a", Seg.i 0, Seg.s "b"], .leaf (.int 1)),
       ([Seg.s "a", Seg.i 1, Seg.s "b"], .leaf (.int 2))] ∧
    flatten exNested true =
      [([Seg.s "a", Seg.i 0, Seg.s "b"], .leaf (.int 1)),
       ([Seg.s "a", Seg.i 1, Seg.s "b"], .leaf (.int 2))] ∧
    (∀ obj ol, falsy obj = true → flatten obj ol = []) := by
  refine ⟨rfl, rfl, ?_⟩
  intro obj ol h
  simp [flatten, h]

/-- C6 witness: the falsy-root clause applied to the empty Mapping. -/
theorem c6_witness :
    falsy (Node.map .nil) = true ∧ flatten (Node.map .nil) false = [] :=
  ⟨rfl, c6_flatten_bfs.2.2 (Node.map .nil) false rfl⟩

/-! ### String-path emptiness (C10) -/

/-- C10: a textually nonempty string path that parses to the empty path
slips past the raw-string emptiness check of `set`/`delete`/`update` and
fails with the `IndexError` raised when taking `path[-1]` of the empty
parsed path, not with the empty-path `ValueError`. -/
theorem c10_parsed_empty_path (obj : Node) (s : String) (v : Node)
    (f : Node → Node) (h1 : s ≠ "") (h2 : parseD s = []) :
    setStr obj s v = .error .idxErr ∧ deleteStr obj s = .error .idxErr ∧
      updateStr obj s f = .error .idxErr := by
  refine ⟨?_, ?_, ?_⟩ <;>
    simp [setStr, deleteStr, updateStr, h1, h2, setCore, delCore, updCore]

/-! ### Parser segment classification (C9) -/

theorem digitsValAux_all (cs : List Char) :
    ∀ acc, cs.all Char.isDigit = true → ∃ n, digitsValAux acc cs = some n := by
  induction cs with
  | nil => intro acc _; exact ⟨acc, rfl⟩
  | cons c r ih =>
    intro acc h
    simp only [List.all_cons, Bool.and_eq_true] at h
    simp only [digitsValAux, h.1, if_true]
    exact ih _ h.2

theorem digitsVal_all (cs : List Char) (hne : cs ≠ [])
    (h : cs.all Char.isDigit = true) : ∃ n, digitsVal cs = some n := by
  cases cs with
  | nil => exact absurd rfl hne
  | cons c r =>
    simp only [digitsVal]
    exact digitsValAux_all (c :: r) 0 h

theorem isDigit_not_quote (c : Char) (h : c.isDigit = true) :
    defQuotes.contains c = false := by
  have h34 : ¬ c = Char.ofNat 34 := by
    intro hh; subst hh; exact absurd h (by decide)
  have h39 : ¬ c = Char.ofNat 39 := by
    intro hh; subst hh; exact absurd h (by decide)
  simp [defQuotes, h34, h39]

theorem isDigit_not_sign (c : Char) (h : c.isDigit = true) :
    ¬ c = '-' ∧ ¬ c = '+' := by
  constructor <;> (intro hh; subst hh; exact absurd h (by decide))

/-- Classification keeps a fully quote-wrapped part as a literal string with
the quotes stripped, whatever the wildcard configuration and whatever the
content between the quotes. -/
theorem classifyPart_quoted (quotes : List Char) (wc : Option Char)
    (part : List Char) (hq : quotes.contains (part.headD ' ') = true)
    (he : part.headD ' ' = part.getLastD ' ') :
    classifyPart quotes wc part = .s (String.mk ((part.drop 1).dropLast)) := by
  have hcond : (quotes.contains (part.headD ' ') = true) ∧
      part.headD ' ' = part.getLastD ' ' := ⟨hq, he⟩
  unfold classifyPart
  rw [if_pos hcond]

/-- An unquoted all-digit part (with the default configuration), with or
without a leading minus sign, is coerced to a base-10 integer. -/
theorem classifyPart_int (part : List Char) (hne : part ≠ [])
    (hd : part.all Char.isDigit = true) :
    ∃ n : Nat, digitsVal part = some n ∧
      classifyPart defQuotes Option.none part = .i (n : Int) ∧
      classifyPart defQuotes Option.none ('-' :: part) = .i (-(n : Int)) := by
  obtain ⟨n, hn⟩ := digitsVal_all part hne hd
  refine ⟨n, hn, ?_, ?_⟩
  · cases part with
    | nil => exact absurd rfl hne
    | cons c r =>
      simp only [List.all_cons, Bool.and_eq_true] at hd
      have hnq : defQuotes.contains ((c :: r).headD ' ') = false := by
        simpa using isDigit_not_quote c hd.1
      have hsig := isDigit_not_sign c hd.1
      have hcond : ¬ ((defQuotes.contains ((c :: r).headD ' ') = true) ∧
          (c :: r).headD ' ' = (c :: r).getLastD ' ') := by
        intro hc
        rw [hnq] at hc
        exact absurd hc.1 (by simp)
      unfold classifyPart
      rw [if_neg hcond, if_neg (by simp)]
      simp [pyInt, hsig.1, hsig.2, hn]
  · have hhd : ('-' :: part).headD ' ' = '-' := rfl
    have hcond : ¬ ((defQuotes.contains (('-' :: part).headD ' ') = true) ∧
        ('-' :: part).headD ' ' = ('-' :: part).getLastD ' ') := by
      intro hc
      have := hc.1
      rw [hhd] at this
      exact absurd this (by decide)
    unfold classifyPart
    rw [if_neg hcond, if_neg (by simp)]
    simp [pyInt, hn]

/-- C9: a segment fully wrapped in a recognized quote character stays a
literal string with the quotes stripped, suppressing both integer coercion
and wildcard replacement, while an unquoted all-digit segment (optionally
signed) is coerced to a base-10 integer; concretely,
`parse("'0'.b") == ("0", "b")` while `parse("0.b") == (0, "b")`. -/
theorem c9_parse_quoting :
    (∀ (quotes : List Char) (wc : Option Char) (part : List Char),
      quotes.contains (part.headD ' ') = true →
      part.headD ' ' = part.getLastD ' ' →
      classifyPart quotes wc part = .s (String.mk ((part.drop 1).dropLast))) ∧
    (∀ part : List Char, part ≠ [] → part.all Char.isDigit = true →
      ∃ n : Nat, digitsVal part = some n ∧
        classifyPart defQuotes Option.none part = .i (n : Int) ∧
        classifyPart defQuotes Option.none ('-' :: part) = .i (-(n : Int))) ∧
    parseD (String.mk [Char.ofNat 39, '0', Char.ofNat 39, '.', 'b']) =
      [Seg.s "0", Seg.s "b"] ∧
    parseD "0.b" = [Seg.i 0, Seg.s "b"] :=
  ⟨classifyPart_quoted, classifyPart_int, rfl, rfl⟩

/-- C9 witness: a quoted wildcard token stays the literal string `"*"`, and
the digit segments `42` / `-42` are coerced to integers. -/
theorem c9_witness :
    defQuotes.contains (([Char.ofNat 39, '*', Char.ofNat 39] : List Char).headD ' ')
      = true ∧
    ([Char.ofNat 39, '*', Char.ofNat 39] : List Char).headD ' ' =
      ([Char.ofNat 39, '*', Char.ofNat 39] : List Char).getLastD ' ' ∧
    classifyPart defQuotes (some '*') [Char.ofNat 39, '*', Char.ofNat 39] =
      .s (String.mk ((([Char.ofNat 39, '*', Char.ofNat 39] : List Char).drop 1).dropLast)) ∧
    (['4', '2'] : List Char) ≠ [] ∧
    (['4', '2'] : List Char).all Char.isDigit = true ∧
    (∃ n : Nat, digitsVal ['4', '2'] = some n ∧
      classifyPart defQuotes Option.none ['4', '2'] = .i (n : Int) ∧
      classifyPart defQuotes Option.none ('-' :: ['4', '2']) = .i (-(n : Int))) := by
  refine ⟨by decide, by decide, ?_, by decide, by decide, ?_⟩
  · exact c9_parse_quoting.1 defQuotes (some '*')
      [Char.ofNat 39, '*', Char.ofNat 39] (by decide) (by decide)
  · exact c9_parse_quoting.2.1 ['4', '2'] (by decide) (by decide)

/-! ### Update never appends (C4) -/

theorem updCore_cons (obj : Node) (j : Seg) (tail : List Seg) (f : Node → Node)
    (h : tail ≠ []) :
    updCore obj (j :: tail) f =
      match pyGetItem obj j with
      | .error e => .error e
      | .ok c =>
        match updCore c tail f with
        | .error e => .error e
        | .ok c2 => pySetItem obj j c2 := by
  cases tail with
  | nil => exact absurd rfl h
  | cons k2 rest => rfl

/-- C4: `update` never appends; whenever the final segment does not resolve
in the parent (the read `cur[path[-1]]` fails), `update` fails with exactly
the error traversal of the full path would raise, for every transform. -/
theorem c4_update_never_appends (root : Node) (pre : List Seg) (k : Seg)
    (f : Node → Node) (parent : Node) (e : Err)
    (h1 : traverse root pre = .ok parent) (h2 : pyGetItem parent k = .error e) :
    update root (pre ++ [k]) f = .error e ∧
      traverse root (pre ++ [k]) = .error e := by
  have hupd : ∀ pre2 root2, traverse root2 pre2 = .ok parent →
      updCore root2 (pre2 ++ [k]) f = .error e := by
    intro pre2
    induction pre2 with
    | nil =>
      intro root2 h
      simp only [traverse] at h
      obtain rfl : root2 = parent := by simp_all
      simp [updCore, h2]
    | cons j rest ih =>
      intro root2 h
      simp only [traverse] at h
      cases hg : pyGetItem root2 j with
      | error e2 => rw [hg] at h; simp at h
      | ok c =>
        rw [hg] at h
        rw [List.cons_append, updCore_cons _ _ _ _ (by simp)]
        simp only [hg]
        simp only [ih c h]
  have htrav : ∀ pre2 root2, traverse root2 pre2 = .ok parent →
      traverse root2 (pre2 ++ [k]) = .error e := by
    intro pre2
    induction pre2 with
    | nil =>
      intro root2 h
      simp only [traverse] at h
      obtain rfl : root2 = parent := by simp_all
      simp [traverse, h2]
    | cons j rest ih =>
      intro root2 h
      simp only [traverse] at h
      cases hg : pyGetItem root2 j with
      | error e2 => rw [hg] at h; simp at h
      | ok c =>
        rw [hg] at h
        rw [List.cons_append]
        simp only [traverse, hg]
        exact ih c h
  refine ⟨?_, htrav pre root h1⟩
  have : (pre ++ [k]).isEmpty = false := by simp
  simp only [update, this, Bool.false_eq_true, if_false]
  exact hupd pre root h1

/-- C4 witness: `update({"a": []}, ("a", 0), f)` fails with `IndexError`. -/
theorem c4_witness :
    traverse (Node.map (KVs.ofList [(Seg.s "a", Node.seq .nil)])) [Seg.s "a"]
      = .ok (Node.seq .nil) ∧
    pyGetItem (Node.seq .nil) (Seg.i 0) = .error .idxErr ∧
    update (Node.map (KVs.ofList [(Seg.s "a", Node.seq .nil)]))
      ([Seg.s "a"] ++ [Seg.i 0]) id = .error .idxErr := by
  refine ⟨rfl, rfl, ?_⟩
  exact (c4_update_never_appends
    (Node.map (KVs.ofList [(Seg.s "a", Node.seq .nil)])) [Seg.s "a"] (Seg.i 0)
    id (Node.seq .nil) .idxErr rfl rfl).1

/-- C10 witness: the path string `"."` is nonempty text parsing to the empty
path; all three mutators report the index error. -/
theorem c10_witness :
    "." ≠ "" ∧ parseD "." = [] ∧
      setStr (Node.map .nil) "." (Node.leaf .none) = .error .idxErr ∧
      deleteStr (Node.map .nil) "." = .error .idxErr ∧
      updateStr (Node.map .nil) "." id = .error .idxErr := by
  have h := c10_parsed_empty_path (Node.map .nil) "." (Node.leaf .none) id
    (by decide) rfl
  exact ⟨by decide, rfl, h.1, h.2.1, h.2.2⟩

/-! ### Interaction of `set` with traversal (C2, C5) -/

theorem setCore_cons (obj : Node) (j : Seg) (tail : List Seg) (v : Node)
    (h : tail ≠ []) :
    setCore obj (j :: tail) v =
      match pyGetItem obj j with
      | .error e => .error e
      | .ok c =>
        match setCore c tail v with
        | .error e => .error e
        | .ok c2 => pySetItem obj j c2 := by
  cases tail with
  | nil => exact absurd rfl h
  | cons k2 rest => rfl

theorem setItem_of_pySetItem_ok (cur : Node) (k : Seg) (v obj2 : Node)
    (h : pySetItem cur k v = .ok obj2) : setItem cur k v = .ok obj2 := by
  simp [setItem, h]

theorem resolveIdx_eq (n : Int) (len : Nat) :
    resolveIdx n len =
      if 0 ≤ (if n < 0 then n + len else n) ∧ (if n < 0 then n + len else n) < len
      then some (if n < 0 then n + len else n).toNat else Option.none := rfl

theorem resolveIdx_self_len (len : Nat) : resolveIdx (len : Int) len = Option.none := by
  rw [resolveIdx_eq]
  split_ifs <;> first | rfl | omega

theorem resolveIdx_gt (n : Int) (len : Nat) (h : (len : Int) < n) :
    resolveIdx n len = Option.none := by
  rw [resolveIdx_eq]
  split_ifs <;> first | rfl | omega

theorem resolveIdx_neg (n : Int) (len r : Nat) (h1 : n < 0)
    (h2 : n + (len : Int) = (r : Int)) (h3 : r < len) :
    resolveIdx n len = some r := by
  rw [resolveIdx_eq]
  split_ifs <;> first | simp only [Option.some.injEq]; omega | omega

/-- Appending: assigning at index `len(xs)` falls into the `IndexError`
handler of `set` and appends. -/
theorem setItem_snoc (xs : Nodes) (v : Node) :
    setItem (.seq xs) (.i (xs.length : Int)) v = .ok (.seq (xs.snoc v)) := by
  simp [setItem, pySetItem, resolveIdx_self_len]

/-- An index strictly beyond the length re-raises `IndexError`. -/
theorem setItem_gt (xs : Nodes) (m : Int) (v : Node) (h : (xs.length : Int) < m) :
    setItem (.seq xs) (.i m) v = .error .idxErr := by
  have hne : ¬ m = (xs.length : Int) := by omega
  simp [setItem, pySetItem, resolveIdx_gt m xs.length h, hne]

/-- If a prefix traversal succeeds and the final `setItem` on the reached
parent succeeds, `setCore` succeeds and re-traversing the prefix in the
rebuilt result reaches the updated parent. -/
theorem setCore_ok (pre : List Seg) :
    ∀ obj parent k v parent2, traverse obj pre = .ok parent →
      setItem parent k v = .ok parent2 →
      ∃ obj2, setCore obj (pre ++ [k]) v = .ok obj2 ∧
        traverse obj2 pre = .ok parent2 := by
  induction pre with
  | nil =>
    intro obj parent k v parent2 h hset
    simp only [traverse] at h
    obtain rfl : obj = parent := by simp_all
    exact ⟨parent2, by simpa [setCore] using hset, by simp [traverse]⟩
  | cons j rest ih =>
    intro obj parent k v parent2 h hset
    simp only [traverse] at h
    cases hg : pyGetItem obj j with
    | error e2 => rw [hg] at h; simp at h
    | ok c =>
      rw [hg] at h
      obtain ⟨c2, hc2, htrav2⟩ := ih c parent k v parent2 h hset
      have hcont : isContainer obj = true := by
        cases obj with
        | map kvs => rfl
        | seq xs => rfl
        | leaf pv =>
          exfalso
          cases pv with
          | str str =>
            cases j with
            | i n =>
              simp only [pyGetItem] at hg
              split at hg
              · simp only [Except.ok.injEq] at hg
                subst hg
                obtain ⟨str2, hstr2⟩ := traverse_leaf_str rest _ parent h
                rw [hstr2, setItem_leaf] at hset
                exact Except.noConfusion hset
              · exact Except.noConfusion hg
            | s s2 => simp [pyGetItem] at hg
            | wild => simp [pyGetItem] at hg
          | int n => simp [pyGetItem] at hg
          | bool b => simp [pyGetItem] at hg
          | none => simp [pyGetItem] at hg
      obtain ⟨obj2, hw, hwget, _⟩ := pySetItem_of_get obj c j hcont hg c2
      refine ⟨obj2, ?_, ?_⟩
      · rw [List.cons_append, setCore_cons _ _ _ _ (by simp)]
        simp only [hg]
        simp only [hc2]
        exact hw
      · simp only [traverse, hwget]
        exact htrav2

/-- If the prefix traversal succeeds but the final `setItem` fails, the
whole `setCore` fails with that error. -/
theorem setCore_err (pre : List Seg) :
    ∀ obj parent k v e, traverse obj pre = .ok parent →
      setItem parent k v = .error e →
      setCore obj (pre ++ [k]) v = .error e := by
  induction pre with
  | nil =>
    intro obj parent k v e h hset
    simp only [traverse] at h
    obtain rfl : obj = parent := by simp_all
    simpa [setCore] using hset
  | cons j rest ih =>
    intro obj parent k v e h hset
    simp only [traverse] at h
    cases hg : pyGetItem obj j with
    | error e2 => rw [hg] at h; simp at h
    | ok c =>
      rw [hg] at h
      rw [List.cons_append, setCore_cons _ _ _ _ (by simp)]
      simp only [hg]
      simp only [ih c parent k v e h hset]

/-- C2: with the parent of the final segment a Sequence of length `n`, `set`
appends when the final segment equals `n`, fails with `IndexError` when it
exceeds `n`, and a negative final segment resolves from the end of the
Sequence and overwrites there. -/
theorem c2_append_boundary (root : Node) (pre : List Seg) (m : Int) (xs : Nodes)
    (v : Node) (hpar : traverse root pre = .ok (.seq xs)) :
    (m = (xs.length : Int) →
      ∃ root2, set root (pre ++ [Seg.i m]) v = .ok root2 ∧
        traverse root2 pre = .ok (.seq (xs.snoc v))) ∧
    ((xs.length : Int) < m →
      set root (pre ++ [Seg.i m]) v = .error .idxErr) ∧
    (∀ r : Nat, m < 0 → m + (xs.length : Int) = (r : Int) → r < xs.length →
      ∃ root2, set root (pre ++ [Seg.i m]) v = .ok root2 ∧
        traverse root2 pre = .ok (.seq (xs.set r v))) := by
  have hie : (pre ++ [Seg.i m]).isEmpty = false := by simp
  refine ⟨?_, ?_, ?_⟩
  · intro hm
    subst hm
    obtain ⟨root2, h1, h2⟩ :=
      setCore_ok pre root (.seq xs) (Seg.i (xs.length : Int)) v
        (.seq (xs.snoc v)) hpar (setItem_snoc xs v)
    exact ⟨root2, by simp [set, hie, h1], h2⟩
  · intro hm
    have := setCore_err pre root (.seq xs) (Seg.i m) v .idxErr hpar
      (setItem_gt xs m v hm)
    simp [set, hie, this]
  · intro r h1 h2 h3
    have hset : setItem (.seq xs) (.i m) v = .ok (.seq (xs.set r v)) := by
      apply setItem_of_pySetItem_ok
      simp [pySetItem, resolveIdx_neg m xs.length r h1 h2 h3]
    obtain ⟨root2, hh1, hh2⟩ :=
      setCore_ok pre root (.seq xs) (Seg.i m) v (.seq (xs.set r v)) hpar hset
    exact ⟨root2, by simp [set, hie, hh1], hh2⟩

/-- C2 witness: on `{"a": [10]}` with parent Sequence of length 1, the final
segment `1` appends, `5` fails with `IndexError`, and `-1` overwrites the
last element. -/
theorem c2_witness :
    traverse (Node.map (KVs.ofList [(Seg.s "a",
        Node.seq (Nodes.ofList [Node.leaf (.int 10)]))])) [Seg.s "a"]
      = .ok (.seq (Nodes.ofList [Node.leaf (.int 10)])) ∧
    (∃ root2, set (Node.map (KVs.ofList [(Seg.s "a",
        Node.seq (Nodes.ofList [Node.leaf (.int 10)]))]))
        ([Seg.s "a"] ++ [Seg.i 1]) (Node.leaf (.int 99)) = .ok root2 ∧
      traverse root2 [Seg.s "a"]
        = .ok (.seq ((Nodes.ofList [Node.leaf (.int 10)]).snoc
            (Node.leaf (.int 99))))) ∧
    set (Node.map (KVs.ofList [(Seg.s "a",
        Node.seq (Nodes.ofList [Node.leaf (.int 10)]))]))
      ([Seg.s "a"] ++ [Seg.i 5]) (Node.leaf (.int 99)) = .error .idxErr ∧
    (∃ root2, set (Node.map (KVs.ofList [(Seg.s "a",
        Node.seq (Nodes.ofList [Node.leaf (.int 10)]))]))
        ([Seg.s "a"] ++ [Seg.i (-1)]) (Node.leaf (.int 99)) = .ok root2 ∧
      traverse root2 [Seg.s "a"]
        = .ok (.seq ((Nodes.ofList [Node.leaf (.int 10)]).set 0
            (Node.leaf (.int 99))))) := by
  have h := c2_append_boundary
    (Node.map (KVs.ofList [(Seg.s "a",
      Node.seq (Nodes.ofList [Node.leaf (.int 10)]))]))
    [Seg.s "a"] 1 (Nodes.ofList [Node.leaf (.int 10)]) (Node.leaf (.int 99)) rfl
  have h5 := c2_append_boundary
    (Node.map (KVs.ofList [(Seg.s "a",
      Node.seq (Nodes.ofList [Node.leaf (.int 10)]))]))
    [Seg.s "a"] 5 (Nodes.ofList [Node.leaf (.int 10)]) (Node.leaf (.int 99)) rfl
  have hneg := c2_append_boundary
    (Node.map (KVs.ofList [(Seg.s "a",
      Node.seq (Nodes.ofList [Node.leaf (.int 10)]))]))
    [Seg.s "a"] (-1) (Nodes.ofList [Node.leaf (.int 10)]) (Node.leaf (.int 99)) rfl
  exact ⟨rfl, h.1 rfl, h5.2.1 (by decide),
    hneg.2.2 0 (by decide) (by decide) (by decide)⟩

/-- The `get` wrapper with no default returns exactly what traversal
returns, for a nonempty path. -/
theorem get_ok_none (obj : Node) (p : List Seg) (v : Node) (hne : p ≠ [])
    (h : get obj p Option.none = .ok v) : traverse obj p = .ok v := by
  have hie : p.isEmpty = false := by
    cases p with
    | nil => exact absurd rfl hne
    | cons a b => rfl
  simp only [get, hie, Bool.false_eq_true, if_false] at h
  cases htr : traverse obj p with
  | ok w => rw [htr] at h; simp_all
  | error e => rw [htr] at h; cases e <;> simp_all

/-- C5: for every structure `S`, nonempty path `P` addressing a node of `S`
(resolving through Mapping/Sequence containers only, per the spec's data
model) and value `v`, `get(set(S, P, v), P)` returns `v`. -/
theorem c5_get_set_inverse (S : Node) (P : List Seg) (v : Node) (hne : P ≠ [])
    (hr : validPath S P = true) :
    ∃ S2, set S P v = .ok S2 ∧ get S2 P Option.none = .ok v := by
  have hie : P.isEmpty = false := by
    cases P with
    | nil => exact absurd rfl hne
    | cons a b => rfl
  suffices h : ∀ (P2 : List Seg) (S0 : Node), P2 ≠ [] → validPath S0 P2 = true →
      ∃ S2, setCore S0 P2 v = .ok S2 ∧ traverse S2 P2 = .ok v by
    obtain ⟨S2, h1, h2⟩ := h P S hne hr
    exact ⟨S2, by simp [set, hie, h1], by simp [get, hie, h2]⟩
  intro P2
  induction P2 with
  | nil => intro S0 hh; exact absurd rfl hh
  | cons k rest ih =>
    intro S0 _ hvp
    simp only [validPath, Bool.and_eq_true] at hvp
    obtain ⟨hcont, hres⟩ := hvp
    cases hg : pyGetItem S0 k with
    | error e => rw [hg] at hres; simp at hres
    | ok c =>
      rw [hg] at hres
      cases rest with
      | nil =>
        obtain ⟨S2, hw, hwget, _⟩ := pySetItem_of_get S0 c k hcont hg v
        refine ⟨S2, ?_, ?_⟩
        · simpa [setCore] using setItem_of_pySetItem_ok S0 k v S2 hw
        · simp [traverse, hwget]
      | cons k2 rest2 =>
        obtain ⟨c2, hc2, htrv⟩ := ih c (by simp) hres
        obtain ⟨S2, hw, hwget, _⟩ := pySetItem_of_get S0 c k hcont hg c2
        refine ⟨S2, ?_, ?_⟩
        · rw [setCore_cons _ _ _ _ (by simp)]
          simp only [hg]
          simp only [hc2]
          exact hw
        · simp only [traverse, hwget]
          exact htrv

/-- C5 witness: setting then getting at `("a", 0, "b")` in the docstring
structure returns the written value. -/
theorem c5_witness :
    ([Seg.s "a", Seg.i 0, Seg.s "b"] : List Seg) ≠ [] ∧
    validPath exNested [Seg.s "a", Seg.i 0, Seg.s "b"] = true ∧
    (∃ S2, set exNested [Seg.s "a", Seg.i 0, Seg.s "b"]
        (Node.leaf (.int 99)) = .ok S2 ∧
      get S2 [Seg.s "a", Seg.i 0, Seg.s "b"] Option.none
        = .ok (Node.leaf (.int 99))) := by
  refine ⟨by simp, rfl, ?_⟩
  exact c5_get_set_inverse exNested [Seg.s "a", Seg.i 0, Seg.s "b"]
    (Node.leaf (.int 99)) (by simp) rfl

/-! ### Unflatten ordering and root validation (C7) -/

theorem mem_insertByLen (x y : List Seg × Node) (l : List (List Seg × Node))
    (h : y ∈ insertByLen x l) : y = x ∨ y ∈ l := by
  induction l with
  | nil => simpa [insertByLen] using h
  | cons a t ih =>
    simp only [insertByLen] at h
    split at h
    · rcases List.mem_cons.mp h with h1 | h1
      · exact Or.inr (List.mem_cons.mpr (Or.inl h1))
      · rcases ih h1 with h2 | h2
        · exact Or.inl h2
        · exact Or.inr (List.mem_cons.mpr (Or.inr h2))
    · rcases List.mem_cons.mp h with h1 | h1
      · exact Or.inl h1
      · exact Or.inr h1

theorem mem_sortByLen (l : List (List Seg × Node)) (y : List Seg × Node)
    (h : y ∈ sortByLen l) : y ∈ l := by
  induction l with
  | nil => simpa [sortByLen] using h
  | cons a t ih =>
    simp only [sortByLen] at h
    rcases mem_insertByLen a y (sortByLen t) h with h1 | h1
    · subst h1; exact List.mem_cons_self _ _
    · exact List.mem_cons.mpr (Or.inr (ih h1))

theorem insertByLen_ne_nil (x : List Seg × Node) (l : List (List Seg × Node)) :
    insertByLen x l ≠ [] := by
  cases l with
  | nil => simp [insertByLen]
  | cons a t =>
    simp only [insertByLen]
    split <;> simp

theorem sortByLen_ne_nil (l : List (List Seg × Node)) (h : l ≠ []) :
    sortByLen l ≠ [] := by
  cases l with
  | nil => exact absurd rfl h
  | cons a t =>
    simp only [sortByLen]
    exact insertByLen_ne_nil a (sortByLen t)

/-- C7: replaying the out-of-order entry list fails with `KeyError` without
sorting; with `sort=true` the entries are stably reordered by ascending path
length and the same list reconstructs the structure; and a first entry with
a nonempty path (every entry, when sorting may pick a different first one)
fails with the invalid-root `ValueError`. -/
theorem c7_unflatten_order :
    unflatten exOutOfOrder false = .error .keyErr ∧
    sortByLen exOutOfOrder =
      [([], .map .nil),
       ([Seg.s "a"], .seq .nil),
       ([Seg.s "a", Seg.i 0], .map .nil),
       ([Seg.s "a", Seg.i 1], .map .nil),
       ([Seg.s "a", Seg.i 0, Seg.s "b"], .leaf (.int 1)),
       ([Seg.s "a", Seg.i 1, Seg.s "b"], .leaf (.int 2))] ∧
    unflatten exOutOfOrder true = .ok exNested ∧
    (∀ (p : List Seg) (v : Node) (rest : List (List Seg × Node)), p ≠ [] →
      unflatten ((p, v) :: rest) false = .error .invalidRoot) ∧
    (∀ entries : List (List Seg × Node), entries ≠ [] →
      (∀ e ∈ entries, e.1 ≠ []) → unflatten entries true = .error .invalidRoot) := by
  refine ⟨rfl, rfl, rfl, ?_, ?_⟩
  · intro p v rest hp
    have hlen : p.length ≠ 0 := by simpa using hp
    simp [unflatten, hlen]
  · intro entries hne hall
    cases hs : sortByLen entries with
    | nil => exact absurd hs (sortByLen_ne_nil entries hne)
    | cons e rest =>
      obtain ⟨root, base⟩ := e
      have hmem : (root, base) ∈ entries := by
        apply mem_sortByLen
        rw [hs]
        exact List.mem_cons_self _ _
      have hp : root ≠ [] := hall _ hmem
      have hlen : root.length ≠ 0 := by simpa using hp
      simp [unflatten, hs, hlen]

/-- C7 witness: a single entry with the nonempty path `("a",)` fails with
the invalid-root error, sorted or not. -/
theorem c7_witness :
    ([Seg.s "a"] : List Seg) ≠ [] ∧
    unflatten [([Seg.s "a"], Node.leaf (.int 1))] false = .error .invalidRoot ∧
    ([([Seg.s "a"], Node.leaf (.int 1))] : List (List Seg × Node)) ≠ [] ∧
    unflatten [([Seg.s "a"], Node.leaf (.int 1))] true = .error .invalidRoot := by
  refine ⟨by simp, ?_, by simp, ?_⟩
  · exact c7_unflatten_order.2.2.2.1 [Seg.s "a"] (Node.leaf (.int 1)) [] (by simp)
  · refine c7_unflatten_order.2.2.2.2 [([Seg.s "a"], Node.leaf (.int 1))]
      (by simp) ?_
    intro e he
    simp only [List.mem_singleton] at he
    subst he
    simp

/-! ### Sizes and the breadth-first queue equations (C1) -/

theorem qsize_nil : qsize [] = 0 := rfl

theorem qsize_cons (e : List Seg × Node) (q : List (List Seg × Node)) :
    qsize (e :: q) = nsize e.2 + qsize q := by
  simp [qsize]

theorem qsize_append (a b : List (List Seg × Node)) :
    qsize (a ++ b) = qsize a + qsize b := by
  simp [qsize]

theorem qsize_cons2 (p : List Seg) (n : Node) (q : List (List Seg × Node)) :
    qsize ((p, n) :: q) = nsize n + qsize q := by
  simp [qsize]

theorem nsize_pos (n : Node) : 1 ≤ nsize n := by
  cases n with
  | map kvs => simp [nsize]
  | seq xs => simp [nsize]
  | leaf v => simp [nsize]

theorem qsize_kvChildren (p : List Seg) (kvs : KVs) :
    qsize (kvChildren p kvs) = ksize kvs := by
  induction kvs using KVs.indOn with
  | nil => rfl
  | cons k v r ih => simp [kvChildren, qsize_cons, ksize, ih]

theorem qsize_seqChildren (p : List Seg) (xs : Nodes) :
    ∀ start, qsize (seqChildren p start xs) = lsize xs := by
  induction xs using Nodes.nindOn with
  | nil => intro start; rfl
  | cons x r ih => intro start; simp [seqChildren, qsize_cons, lsize, ih]

theorem nsize_childEntries (n : Node) (p : List Seg) :
    nsize n = qsize (childEntries p n) + 1 := by
  cases n with
  | map kvs => simp [nsize, childEntries, qsize_kvChildren]; omega
  | seq xs => simp [nsize, childEntries, qsize_seqChildren]; omega
  | leaf v => simp [nsize, childEntries, qsize_nil]

theorem qsize_step (p : List Seg) (n : Node) (t : List (List Seg × Node)) :
    qsize (t ++ childEntries p n) + 1 = qsize ((p, n) :: t) := by
  rw [qsize_append, qsize_cons2]
  have := nsize_childEntries n p
  omega

theorem qsize_eq_zero (q : List (List Seg × Node)) (h : qsize q = 0) : q = [] := by
  cases q with
  | nil => rfl
  | cons e t =>
    exfalso
    rw [qsize_cons] at h
    have := nsize_pos e.2
    omega

theorem bfsF_fuel_irrel (ol : Bool) :
    ∀ (fuel fuel2 : Nat) (q : List (List Seg × Node)),
      qsize q ≤ fuel → qsize q ≤ fuel2 → bfsF ol fuel q = bfsF ol fuel2 q := by
  intro fuel
  induction fuel with
  | zero =>
    intro fuel2 q h1 h2
    have hq : q = [] := qsize_eq_zero q (by omega)
    subst hq
    cases fuel2 <;> rfl
  | succ f ih =>
    intro fuel2 q h1 h2
    cases q with
    | nil => cases fuel2 <;> rfl
    | cons e t =>
      obtain ⟨p, n⟩ := e
      rw [qsize_cons2] at h1 h2
      have hpos := nsize_pos n
      cases fuel2 with
      | zero => omega
      | succ f2 =>
        have hstep := nsize_childEntries n p
        cases n with
        | map kvs =>
          simp only [bfsF]
          rw [ih f2 (t ++ childEntries p (.map kvs))
            (by rw [qsize_append]; omega) (by rw [qsize_append]; omega)]
        | seq xs =>
          simp only [bfsF]
          rw [ih f2 (t ++ childEntries p (.seq xs))
            (by rw [qsize_append]; omega) (by rw [qsize_append]; omega)]
        | leaf v =>
          simp only [bfsF]
          rw [ih f2 t (by omega) (by omega)]

theorem bfs_nil (ol : Bool) : bfs ol [] = [] := rfl

theorem bfs_leaf (ol : Bool) (p : List Seg) (v : PrimVal)
    (t : List (List Seg × Node)) :
    bfs ol ((p, .leaf v) :: t) = (p, .leaf v) :: bfs ol t := by
  have h : qsize ((p, Node.leaf v) :: t) = qsize t + 1 := by
    rw [qsize_cons]
    simp [nsize]
    omega
  unfold bfs
  rw [h]
  simp only [bfsF]

theorem bfs_map (ol : Bool) (p : List Seg) (kvs : KVs)
    (t : List (List Seg × Node)) :
    bfs ol ((p, .map kvs) :: t) =
      (if ol then [] else [(p, Node.map .nil)]) ++
        bfs ol (t ++ childEntries p (.map kvs)) := by
  have h : qsize ((p, Node.map kvs) :: t) =
      qsize (t ++ childEntries p (.map kvs)) + 1 := (qsize_step p _ t).symm
  unfold bfs
  rw [h]
  simp only [bfsF]

theorem bfs_seq (ol : Bool) (p : List Seg) (xs : Nodes)
    (t : List (List Seg × Node)) :
    bfs ol ((p, .seq xs) :: t) =
      (if ol then [] else [(p, Node.seq .nil)]) ++
        bfs ol (t ++ childEntries p (.seq xs)) := by
  have h : qsize ((p, Node.seq xs) :: t) =
      qsize (t ++ childEntries p (.seq xs)) + 1 := (qsize_step p _ t).symm
  unfold bfs
  rw [h]
  simp only [bfsF]

theorem emits_nil : emits [] = [] := rfl

theorem emits_cons (e : List Seg × Node) (q : List (List Seg × Node)) :
    emits (e :: q) = (e.1, emitVal e.2) :: emits q := rfl

theorem emits_append (a b : List (List Seg × Node)) :
    emits (a ++ b) = emits a ++ emits b := by
  simp [emits]

theorem childrenAll_nil : childrenAll [] = [] := rfl

theorem childrenAll_cons (e : List Seg × Node) (q : List (List Seg × Node)) :
    childrenAll (e :: q) = childEntries e.1 e.2 ++ childrenAll q := by
  simp [childrenAll]

theorem childrenAll_append (a b : List (List Seg × Node)) :
    childrenAll (a ++ b) = childrenAll a ++ childrenAll b := by
  simp [childrenAll]

/-- Splitting the breadth-first walk: the walk of `A ++ B` first emits every
node of `A`, then continues on `B` followed by the children of `A`. -/
theorem bfs_split :
    ∀ (fuel : Nat) (A B : List (List Seg × Node)), qsize A ≤ fuel →
      bfs false (A ++ B) = emits A ++ bfs false (B ++ childrenAll A) := by
  intro fuel
  induction fuel with
  | zero =>
    intro A B h
    have hq : A = [] := qsize_eq_zero A (by omega)
    subst hq
    simp [emits_nil, childrenAll_nil]
  | succ f ih =>
    intro A B h
    cases A with
    | nil => simp [emits_nil, childrenAll_nil]
    | cons e A2 =>
      obtain ⟨p, n⟩ := e
      have hpos := nsize_pos n
      rw [qsize_cons2] at h
      cases n with
      | leaf v =>
        rw [List.cons_append, bfs_leaf, ih A2 B (by omega)]
        rw [emits_cons, childrenAll_cons]
        simp [emitVal, childEntries]
      | map kvs =>
        rw [List.cons_append, bfs_map, List.append_assoc,
          ih A2 (B ++ childEntries p (.map kvs)) (by omega)]
        rw [emits_cons, childrenAll_cons]
        simp [emitVal, List.append_assoc]
      | seq xs =>
        rw [List.cons_append, bfs_seq, List.append_assoc,
          ih A2 (B ++ childEntries p (.seq xs)) (by omega)]
        rw [emits_cons, childrenAll_cons]
        simp [emitVal, List.append_assoc]

/-- One-row unfolding of the breadth-first walk. -/
theorem bfs_row (Q : List (List Seg × Node)) :
    bfs false Q = emits Q ++ bfs false (childrenAll Q) := by
  have h := bfs_split (qsize Q) Q [] le_rfl
  simpa using h

/-! ### Replay helpers (C1) -/

theorem replayF_append (a b : List (List Seg × Node)) :
    ∀ obj, replayF obj (a ++ b) =
      match replayF obj a with
      | .ok obj2 => replayF obj2 b
      | .error e => .error e := by
  induction a with
  | nil => intro obj; simp [replayF]
  | cons e t ih =>
    intro obj
    obtain ⟨p, v⟩ := e
    simp only [List.cons_append, replayF]
    cases hsc : setCore obj p v with
    | ok o2 => exact ih o2
    | error e2 => rfl

theorem replay_eq_replayF :
    ∀ (es : List (List Seg × Node)) (obj : Node), (∀ e ∈ es, e.1 ≠ []) →
      replay obj es = replayF obj es := by
  intro es
  induction es with
  | nil => intro obj h; rfl
  | cons e t ih =>
    intro obj h
    obtain ⟨p, v⟩ := e
    have hp : p ≠ [] := h _ (List.mem_cons_self _ _)
    have hlen : ¬ p.length < 1 := by
      cases p with
      | nil => exact absurd rfl hp
      | cons a b => simp
    have hie : p.isEmpty = false := by
      cases p with
      | nil => exact absurd rfl hp
      | cons a b => rfl
    simp only [replay, replayF, hlen, if_false, set, hie, Bool.false_eq_true]
    cases hsc : setCore obj p v with
    | ok o2 => exact ih o2 (fun x hx => h x (List.mem_cons_of_mem _ hx))
    | error e2 => rfl

theorem kvChildren_path (p : List Seg) (kvs : KVs) :
    ∀ e ∈ kvChildren p kvs, ∃ k, e.1 = p ++ [k] := by
  induction kvs using KVs.indOn with
  | nil => intro e he; simp [kvChildren] at he
  | cons k v r ih =>
    intro e he
    simp only [kvChildren, List.mem_cons] at he
    rcases he with he | he
    · exact ⟨k, by rw [he]⟩
    · exact ih e he

theorem seqChildren_path (p : List Seg) (xs : Nodes) :
    ∀ start, ∀ e ∈ seqChildren p start xs, ∃ k, e.1 = p ++ [k] := by
  induction xs using Nodes.nindOn with
  | nil => intro start e he; simp [seqChildren] at he
  | cons x r ih =>
    intro start e he
    simp only [seqChildren, List.mem_cons] at he
    rcases he with he | he
    · exact ⟨Seg.i (start : Int), by rw [he]⟩
    · exact ih (start + 1) e he

theorem childEntries_path (p : List Seg) (n : Node) :
    ∀ e ∈ childEntries p n, ∃ k, e.1 = p ++ [k] := by
  cases n with
  | map kvs => exact kvChildren_path p kvs
  | seq xs => exact seqChildren_path p xs 0
  | leaf v => intro e he; simp [childEntries] at he

theorem bfsF_paths (ol : Bool) :
    ∀ (fuel : Nat) (q : List (List Seg × Node)), (∀ e ∈ q, e.1 ≠ []) →
      ∀ e2 ∈ bfsF ol fuel q, e2.1 ≠ [] := by
  intro fuel
  induction fuel with
  | zero => intro q h e2 h2; simp [bfsF] at h2
  | succ f ih =>
    intro q h e2 h2
    cases q with
    | nil => simp [bfsF] at h2
    | cons e t =>
      obtain ⟨p, n⟩ := e
      have hp : p ≠ [] := h _ (List.mem_cons_self _ _)
      have ht : ∀ x ∈ t, x.1 ≠ [] := fun x hx => h x (List.mem_cons_of_mem _ hx)
      have htc : ∀ x ∈ t ++ childEntries p n, x.1 ≠ [] := by
        intro x hx
        rcases List.mem_append.mp hx with hx | hx
        · exact ht x hx
        · obtain ⟨k, hk⟩ := childEntries_path p n x hx
          rw [hk]
          simp
      cases n with
      | leaf v =>
        simp only [bfsF, List.mem_cons] at h2
        rcases h2 with h2 | h2
        · rw [h2]; exact hp
        · exact ih t ht e2 h2
      | map kvs =>
        simp only [bfsF] at h2
        rcases List.mem_append.mp h2 with h2 | h2
        · rcases ol with _ | _
          · simp at h2
            rw [h2]
            exact hp
          · simp at h2
        · exact ih (t ++ childEntries p (.map kvs)) htc e2 h2
      | seq xs =>
        simp only [bfsF] at h2
        rcases List.mem_append.mp h2 with h2 | h2
        · rcases ol with _ | _
          · simp at h2
            rw [h2]
            exact hp
          · simp at h2
        · exact ih (t ++ childEntries p (.seq xs)) htc e2 h2

/-! ### Ordered-container append lemmas (C1) -/

theorem KVs.append_assoc (a b c : KVs) :
    (a.append b).append c = a.append (b.append c) := by
  induction a using KVs.indOn with
  | nil => rfl
  | cons k v r ih => simp [KVs.append, ih]

theorem KVs.get_append_of_absent (a b : KVs) (k : Seg)
    (h : a.hasKey k = false) : (a.append b).get k = b.get k := by
  induction a using KVs.indOn with
  | nil => rfl
  | cons k2 v r ih =>
    simp only [KVs.hasKey, KVs.get] at h
    by_cases h2 : k2 = k
    · rw [h2] at h
      simp at h
    · simp only [KVs.append, KVs.get, h2, if_false]
      exact ih (by simpa [KVs.hasKey, KVs.get, h2] using h)

theorem KVs.set_append_of_absent (a b : KVs) (k : Seg) (v : Node)
    (h : a.hasKey k = false) : (a.append b).set k v = a.append (b.set k v) := by
  induction a using KVs.indOn with
  | nil => rfl
  | cons k2 w r ih =>
    simp only [KVs.hasKey, KVs.get] at h
    by_cases h2 : k2 = k
    · rw [h2] at h
      simp at h
    · simp only [KVs.append, KVs.set, h2, if_false]
      rw [ih (by simpa [KVs.hasKey, KVs.get, h2] using h)]

theorem KVs.set_fresh (kvs : KVs) (k : Seg) (v : Node)
    (h : kvs.hasKey k = false) : kvs.set k v = kvs.append (.cons k v .nil) := by
  induction kvs using KVs.indOn with
  | nil => rfl
  | cons k2 w r ih =>
    simp only [KVs.hasKey, KVs.get] at h
    by_cases h2 : k2 = k
    · rw [h2] at h
      simp at h
    · simp only [KVs.set, KVs.append, h2, if_false]
      rw [ih (by simpa [KVs.hasKey, KVs.get, h2] using h)]

theorem KVs.hasKey_append (a b : KVs) (k : Seg) :
    (a.append b).hasKey k = (a.hasKey k || b.hasKey k) := by
  induction a using KVs.indOn with
  | nil => simp [KVs.hasKey, KVs.append, KVs.get]
  | cons k2 w r ih =>
    simp only [KVs.append, KVs.hasKey, KVs.get]
    by_cases h2 : k2 = k
    · simp [h2]
    · simp only [h2, if_false]
      simpa [KVs.hasKey] using ih

theorem Nodes.nappend_assoc (a b c : Nodes) :
    (a.append b).append c = a.append (b.append c) := by
  induction a using Nodes.nindOn with
  | nil => rfl
  | cons x r ih => simp [Nodes.append, ih]

theorem Nodes.length_append (a b : Nodes) :
    (a.append b).length = a.length + b.length := by
  induction a using Nodes.nindOn with
  | nil => simp [Nodes.append, Nodes.length]
  | cons x r ih => simp [Nodes.append, Nodes.length, ih]; omega

theorem Nodes.snoc_eq_append (a : Nodes) (x : Node) :
    a.snoc x = a.append (.cons x .nil) := by
  induction a using Nodes.nindOn with
  | nil => rfl
  | cons y r ih => simp [Nodes.snoc, Nodes.append, ih]

theorem Nodes.get_append_length (a : Nodes) (x : Node) (b : Nodes) :
    (a.append (.cons x b)).get a.length = some x := by
  induction a using Nodes.nindOn with
  | nil => rfl
  | cons y r ih => simpa [Nodes.append, Nodes.length, Nodes.get] using ih

theorem Nodes.set_append_length (a : Nodes) (x v : Node) (b : Nodes) :
    (a.append (.cons x b)).set a.length v = a.append (.cons v b) := by
  induction a using Nodes.nindOn with
  | nil => rfl
  | cons y r ih => simpa [Nodes.append, Nodes.length, Nodes.set] using ih

theorem Nodes.nset_of_get (xs : Nodes) :
    ∀ (r : Nat) (c : Node), xs.get r = some c → xs.set r c = xs := by
  induction xs using Nodes.nindOn with
  | nil => intro r c h; simp [Nodes.get] at h
  | cons x t ih =>
    intro r c h
    cases r with
    | zero =>
      simp only [Nodes.get, Option.some.injEq] at h
      rw [Nodes.set, h]
    | succ r2 =>
      simp only [Nodes.get] at h
      simp [Nodes.set, ih r2 c h]

theorem Nodes.nset_set_self (xs : Nodes) :
    ∀ (r : Nat) (v w : Node), (xs.set r v).set r w = xs.set r w := by
  induction xs using Nodes.nindOn with
  | nil => intro r v w; rfl
  | cons x t ih =>
    intro r v w
    cases r with
    | zero => rfl
    | succ r2 => simp [Nodes.set, ih r2]

/-! ### Rows of the tree and path shifting (C1) -/

theorem shiftE_nil (k : Seg) : shiftE k [] = [] := rfl

theorem shiftE_append (k : Seg) (a b : List (List Seg × Node)) :
    shiftE k (a ++ b) = shiftE k a ++ shiftE k b := by
  simp [shiftE]

theorem emits_shiftE (k : Seg) (es : List (List Seg × Node)) :
    emits (shiftE k es) = shiftE k (emits es) := by
  simp [emits, shiftE]

theorem flatten_map_pair (l : List (List Seg × Node)) :
    (l.map (fun e => [(e.1, e.2)])).flatten = l := by
  induction l with
  | nil => rfl
  | cons e t ih => simp [ih]

theorem nodesAt_one (n : Node) (p : List Seg) :
    nodesAt 1 p n = childEntries p n := by
  simp only [nodesAt]
  exact flatten_map_pair (childEntries p n)

theorem childrenAll_flatten (l : List (List (List Seg × Node))) :
    childrenAll l.flatten = (l.map childrenAll).flatten := by
  induction l with
  | nil => rfl
  | cons a t ih => simp [childrenAll_append, ih]

theorem childrenAll_nodesAt (d : Nat) :
    ∀ (p : List Seg) (n : Node),
      childrenAll (nodesAt d p n) = nodesAt (d + 1) p n := by
  induction d with
  | zero =>
    intro p n
    simp only [nodesAt]
    rw [childrenAll_cons, childrenAll_nil, List.append_nil]
    exact (flatten_map_pair (childEntries p n)).symm
  | succ d ih =>
    intro p n
    simp only [nodesAt]
    rw [childrenAll_flatten, List.map_map]
    congr 1
    apply List.map_congr_left
    intro e _
    exact ih e.1 e.2

theorem kvChildren_cons_path (k : Seg) (p : List Seg) (kvs : KVs) :
    kvChildren (k :: p) kvs = shiftE k (kvChildren p kvs) := by
  induction kvs using KVs.indOn with
  | nil => rfl
  | cons k2 v r ih => simp [kvChildren, shiftE, ih]

theorem seqChildren_cons_path (k : Seg) (p : List Seg) (xs : Nodes) :
    ∀ start, seqChildren (k :: p) start xs = shiftE k (seqChildren p start xs) := by
  induction xs using Nodes.nindOn with
  | nil => intro start; rfl
  | cons x r ih => intro start; simp [seqChildren, shiftE, ih]

theorem childEntries_cons_path (k : Seg) (p : List Seg) (n : Node) :
    childEntries (k :: p) n = shiftE k (childEntries p n) := by
  cases n with
  | map kvs => exact kvChildren_cons_path k p kvs
  | seq xs => exact seqChildren_cons_path k p xs 0
  | leaf v => rfl

theorem nodesAt_cons_path (d : Nat) :
    ∀ (k : Seg) (p : List Seg) (n : Node),
      nodesAt d (k :: p) n = shiftE k (nodesAt d p n) := by
  induction d with
  | zero => intro k p n; rfl
  | succ d ih =>
    intro k p n
    simp only [nodesAt, childEntries_cons_path, shiftE, List.map_map]
    rw [List.map_flatten, List.map_map]
    apply congrArg List.flatten
    apply List.map_congr_left
    intro e _
    simp only [Function.comp_apply]
    simpa [shiftE] using ih k e.1 e.2

theorem nodesAt_path_len (d : Nat) :
    ∀ (p : List Seg) (n : Node), ∀ e ∈ nodesAt d p n, e.1.length = p.length + d := by
  induction d with
  | zero =>
    intro p n e he
    simp only [nodesAt, List.mem_singleton] at he
    subst he
    simp
  | succ d ih =>
    intro p n e he
    simp only [nodesAt, List.mem_flatten] at he
    obtain ⟨l, hl, hel⟩ := he
    rw [List.mem_map] at hl
    obtain ⟨ce, hce, rfl⟩ := hl
    obtain ⟨k, hk⟩ := childEntries_path p n ce hce
    have := ih ce.1 ce.2 e hel
    rw [hk] at this
    simp at this
    omega

/-! ### Truncations (C1) -/

theorem trunc_zero (n : Node) : trunc 0 n = emitVal n := by
  cases n <;> rfl

theorem trunc_leaf (d : Nat) (v : PrimVal) : trunc d (.leaf v) = .leaf v := by
  cases d <;> rfl

theorem wf_map_nodup (kvs : KVs) (h : wf (.map kvs) = true) :
    nodupKeys kvs = true := by
  simp only [wf, Bool.and_eq_true] at h
  exact h.1

theorem wf_map_wfK (kvs : KVs) (h : wf (.map kvs) = true) : wfK kvs = true := by
  simp only [wf, Bool.and_eq_true] at h
  exact h.2

theorem wf_seq_wfL (xs : Nodes) (h : wf (.seq xs) = true) : wfL xs = true := by
  simpa [wf] using h

/-! ### Row-block decomposition of the emitted rows (C1) -/

theorem emits_nodesAt_map (r : Nat) (kvs : KVs) :
    emits (nodesAt (r + 1) [] (.map kvs)) = rowBlocks r kvs := by
  induction kvs using KVs.indOn with
  | nil => rfl
  | cons k c rest ih =>
    show emits (((kvChildren [] (KVs.cons k c rest)).map
      (fun e => nodesAt r e.1 e.2)).flatten) = _
    simp only [kvChildren, List.nil_append, List.map_cons, List.flatten_cons,
      emits_append]
    rw [show nodesAt r [k] c = shiftE k (nodesAt r [] c) from nodesAt_cons_path r k [] c,
      emits_shiftE, rowBlocks]
    congr 1

theorem emits_nodesAt_seqAux (r : Nat) (xs : Nodes) :
    ∀ start,
      emits (((seqChildren [] start xs).map
        (fun e => nodesAt r e.1 e.2)).flatten) = rowBlocksL r start xs := by
  induction xs using Nodes.nindOn with
  | nil => intro start; rfl
  | cons c rest ih =>
    intro start
    simp only [seqChildren, List.nil_append, List.map_cons, List.flatten_cons,
      emits_append]
    rw [show nodesAt r [Seg.i (start : Int)] c =
        shiftE (Seg.i (start : Int)) (nodesAt r [] c) from
      nodesAt_cons_path r (Seg.i (start : Int)) [] c, emits_shiftE, rowBlocksL]
    congr 1
    exact ih (start + 1)

theorem emits_nodesAt_seq (r : Nat) (xs : Nodes) :
    emits (nodesAt (r + 1) [] (.seq xs)) = rowBlocksL r 0 xs := by
  exact emits_nodesAt_seqAux r xs 0

/-! ### Child-subtree surgery under replay (C1) -/

theorem shiftE_cons (k : Seg) (e : List Seg × Node) (t : List (List Seg × Node)) :
    shiftE k (e :: t) = (k :: e.1, e.2) :: shiftE k t := rfl

theorem KVs.append_nil_right (a : KVs) : a.append .nil = a := by
  induction a using KVs.indOn with
  | nil => rfl
  | cons k v r ih => simp [KVs.append, ih]

theorem Nodes.nappend_nil_right (a : Nodes) : a.append .nil = a := by
  induction a using Nodes.nindOn with
  | nil => rfl
  | cons x r ih => simp [Nodes.append, ih]

theorem KVs.hasKey_cons (k : Seg) (v : Node) (r : KVs) (k2 : Seg) :
    (KVs.cons k v r).hasKey k2 = if k = k2 then true else r.hasKey k2 := by
  by_cases h : k = k2 <;> simp [KVs.hasKey, KVs.get, h]

/-- Replaying a block of entries that all start with the key of an existing
dict child performs surgery on that child alone. -/
theorem replayF_shift_map (k : Seg) (es : List (List Seg × Node)) :
    ∀ (kvs : KVs) (c : Node), (∀ e ∈ es, e.1 ≠ []) → kvs.get k = some c →
      replayF (.map kvs) (shiftE k es) =
        match replayF c es with
        | .ok c2 => .ok (.map (kvs.set k c2))
        | .error e => .error e := by
  induction es with
  | nil =>
    intro kvs c h hget
    simp [shiftE, replayF, KVs.set_of_get kvs k c hget]
  | cons e t ih =>
    intro kvs c h hget
    obtain ⟨p, v⟩ := e
    have hp : p ≠ [] := h _ (List.mem_cons_self _ _)
    have hgi : pyGetItem (.map kvs) k = .ok c := by simp [pyGetItem, hget]
    have hsc2 : setCore (.map kvs) (k :: p) v =
        match setCore c p v with
        | .ok c2 => .ok (.map (kvs.set k c2))
        | .error e2 => .error e2 := by
      rw [setCore_cons _ _ _ _ hp]
      simp only [hgi]
      cases setCore c p v with
      | ok c2 => simp [pySetItem]
      | error e2 => rfl
    rw [shiftE_cons]
    simp only [replayF, hsc2]
    cases hsc : setCore c p v with
    | error e2 => rfl
    | ok c2 =>
      show replayF (Node.map (kvs.set k c2)) (shiftE k t) =
        match replayF c2 t with
        | .ok c3 => .ok (.map (kvs.set k c3))
        | .error e2 => .error e2
      rw [ih (kvs.set k c2) c2 (fun x hx => h x (List.mem_cons_of_mem _ hx))
        (KVs.get_set_self kvs k c2)]
      cases replayF c2 t <;> simp [KVs.set_set_self]

/-- Replaying a block of entries that all start with an in-range index of a
list performs surgery on that element alone. -/
theorem replayF_shift_seq (idx : Nat) (es : List (List Seg × Node)) :
    ∀ (xs : Nodes) (c : Node), (∀ e ∈ es, e.1 ≠ []) → xs.get idx = some c →
      replayF (.seq xs) (shiftE (Seg.i (idx : Int)) es) =
        match replayF c es with
        | .ok c2 => .ok (.seq (xs.set idx c2))
        | .error e => .error e := by
  induction es with
  | nil =>
    intro xs c h hget
    simp [shiftE, replayF, Nodes.nset_of_get xs idx c hget]
  | cons e t ih =>
    intro xs c h hget
    obtain ⟨p, v⟩ := e
    have hp : p ≠ [] := h _ (List.mem_cons_self _ _)
    have hlt : idx < xs.length := Nodes.get_isSome_lt xs idx c hget
    have hres : resolveIdx (idx : Int) xs.length = some idx :=
      resolveIdx_nat idx xs.length hlt
    have hgi : pyGetItem (.seq xs) (Seg.i (idx : Int)) = .ok c := by
      simp [pyGetItem, hres, hget]
    have hsc2 : setCore (.seq xs) (Seg.i (idx : Int) :: p) v =
        match setCore c p v with
        | .ok c2 => .ok (.seq (xs.set idx c2))
        | .error e2 => .error e2 := by
      rw [setCore_cons _ _ _ _ hp]
      simp only [hgi]
      cases setCore c p v with
      | ok c2 => simp [pySetItem, hres]
      | error e2 => rfl
    rw [shiftE_cons]
    simp only [replayF, hsc2]
    cases hsc : setCore c p v with
    | error e2 => rfl
    | ok c2 =>
      show replayF (Node.seq (xs.set idx c2)) (shiftE (Seg.i (idx : Int)) t) =
        match replayF c2 t with
        | .ok c3 => .ok (.seq (xs.set idx c3))
        | .error e2 => .error e2
      rw [ih (xs.set idx c2) c2 (fun x hx => h x (List.mem_cons_of_mem _ hx))
        (Nodes.nget_set_self xs idx c2 hlt)]
      cases replayF c2 t <;> simp [Nodes.nset_set_self]

theorem emits_paths (q : List (List Seg × Node)) (P : List Seg → Prop)
    (h : ∀ e ∈ q, P e.1) : ∀ e ∈ emits q, P e.1 := by
  intro e he
  simp only [emits, List.mem_map] at he
  obtain ⟨e0, he0, rfl⟩ := he
  exact h e0 he0

theorem emits_nodesAt_ne_nil (r : Nat) (c : Node) :
    ∀ e ∈ emits (nodesAt (r + 1) [] c), e.1 ≠ [] := by
  intro e he
  simp only [emits, List.mem_map] at he
  obtain ⟨e0, he0, rfl⟩ := he
  have hlen := nodesAt_path_len (r + 1) [] c e0 he0
  intro hnil
  simp only at hnil
  rw [hnil] at hlen
  simp at hlen

/-! ### Replaying one row, child block by child block (C1) -/

/-- Inserting the first row below an (initially empty) dict reconstructs its
children as empty containers and leaf values, in insertion order. -/
theorem replayF_map_ins (todo : KVs) :
    ∀ done : KVs, nodupKeys todo = true →
      (∀ k, todo.hasKey k = true → done.hasKey k = false) →
      replayF (.map done) (rowBlocks 0 todo) =
        .ok (.map (done.append (truncK 0 todo))) := by
  induction todo using KVs.indOn with
  | nil =>
    intro done _ _
    simp [rowBlocks, replayF, truncK, KVs.append_nil_right]
  | cons k c rest ih =>
    intro done hnodup hdisj
    obtain ⟨hkrest, hnodrest⟩ : rest.hasKey k = false ∧ nodupKeys rest = true := by
      simpa [nodupKeys, Bool.and_eq_true] using hnodup
    have hdk : done.hasKey k = false := hdisj k (by simp [KVs.hasKey_cons])
    rw [rowBlocks, show shiftE k (emits (nodesAt 0 [] c)) = [([k], emitVal c)] from rfl,
      List.singleton_append]
    have hset : setCore (.map done) [k] (emitVal c) =
        .ok (.map (done.set k (emitVal c))) := by
      simp [setCore, setItem, pySetItem]
    simp only [replayF, hset]
    rw [KVs.set_fresh done k _ hdk]
    rw [ih (done.append (.cons k (emitVal c) .nil)) hnodrest ?hdisj2]
    case hdisj2 =>
      intro k2 hk2
      rw [KVs.hasKey_append]
      have hd2 : done.hasKey k2 = false := by
        apply hdisj k2
        rw [KVs.hasKey_cons]
        split
        · rfl
        · exact hk2
      have hs2 : (KVs.cons k (emitVal c) KVs.nil).hasKey k2 = false := by
        rw [KVs.hasKey_cons]
        split
        · next heq => rw [← heq] at hk2; rw [hk2] at hkrest; exact hkrest
        · rfl
      rw [hd2, hs2]
      rfl
    rw [KVs.append_assoc]
    rw [show (KVs.cons k (emitVal c) KVs.nil).append (truncK 0 rest) =
      KVs.cons k (emitVal c) (truncK 0 rest) from rfl]
    rw [← trunc_zero]
    rfl

/-- Inserting the first row below an (initially empty) list appends its
children in index order. -/
theorem replayF_seq_ins (todo : Nodes) :
    ∀ done : Nodes,
      replayF (.seq done) (rowBlocksL 0 done.length todo) =
        .ok (.seq (done.append (truncL 0 todo))) := by
  induction todo using Nodes.nindOn with
  | nil =>
    intro done
    simp [rowBlocksL, replayF, truncL, Nodes.nappend_nil_right]
  | cons c rest ih =>
    intro done
    rw [rowBlocksL,
      show shiftE (Seg.i (done.length : Int)) (emits (nodesAt 0 [] c)) =
        [([Seg.i (done.length : Int)], emitVal c)] from rfl,
      List.singleton_append]
    have hset : setCore (.seq done) [Seg.i (done.length : Int)] (emitVal c) =
        .ok (.seq (done.snoc (emitVal c))) := by
      simp only [setCore]
      exact setItem_snoc done (emitVal c)
    simp only [replayF, hset]
    rw [Nodes.snoc_eq_append]
    have hlen2 : (done.append (.cons (emitVal c) .nil)).length = done.length + 1 := by
      rw [Nodes.length_append]
      rfl
    rw [← hlen2, ih (done.append (.cons (emitVal c) .nil))]
    rw [Nodes.nappend_assoc]
    rw [show (Nodes.cons (emitVal c) Nodes.nil).append (truncL 0 rest) =
      Nodes.cons (emitVal c) (truncL 0 rest) from rfl]
    rw [← trunc_zero]
    rfl

/-- Replaying the next row below a dict refines every child from its depth-
`r` truncation to its depth-`r+1` truncation, one block per child. -/
theorem replayF_map_sur (r : Nat)
    (hIH : ∀ c : Node, wf c = true →
      replayF (trunc r c) (emits (nodesAt (r + 1) [] c)) = .ok (trunc (r + 1) c)) :
    ∀ todo : KVs, wfK todo = true → nodupKeys todo = true →
      ∀ done : KVs, (∀ k, todo.hasKey k = true → done.hasKey k = false) →
        replayF (.map (done.append (truncK r todo))) (rowBlocks (r + 1) todo) =
          .ok (.map (done.append (truncK (r + 1) todo))) := by
  intro todo
  induction todo using KVs.indOn with
  | nil =>
    intro _ _ done _
    simp [rowBlocks, replayF, truncK, KVs.append_nil_right]
  | cons k c rest ih =>
    intro hwfk hnodup done hdisj
    obtain ⟨hwfc, hwfrest⟩ : wf c = true ∧ wfK rest = true := by
      simpa [wfK, Bool.and_eq_true] using hwfk
    obtain ⟨hkrest, hnodrest⟩ : rest.hasKey k = false ∧ nodupKeys rest = true := by
      simpa [nodupKeys, Bool.and_eq_true] using hnodup
    have hdk : done.hasKey k = false := hdisj k (by simp [KVs.hasKey_cons])
    rw [rowBlocks, replayF_append]
    rw [show truncK r (KVs.cons k c rest) = KVs.cons k (trunc r c) (truncK r rest)
      from rfl]
    have hget : (done.append (KVs.cons k (trunc r c) (truncK r rest))).get k =
        some (trunc r c) := by
      rw [KVs.get_append_of_absent _ _ _ hdk]
      simp [KVs.get]
    have hblock : replayF (.map (done.append (KVs.cons k (trunc r c) (truncK r rest))))
        (shiftE k (emits (nodesAt (r + 1) [] c))) =
        .ok (.map (done.append (KVs.cons k (trunc (r + 1) c) (truncK r rest)))) := by
      rw [replayF_shift_map k _ _ _ (emits_nodesAt_ne_nil r c) hget, hIH c hwfc]
      show Except.ok (Node.map
        ((done.append (KVs.cons k (trunc r c) (truncK r rest))).set k
          (trunc (r + 1) c))) = _
      rw [KVs.set_append_of_absent _ _ _ _ hdk]
      have : (KVs.cons k (trunc r c) (truncK r rest)).set k (trunc (r + 1) c) =
          KVs.cons k (trunc (r + 1) c) (truncK r rest) := by
        simp [KVs.set]
      rw [this]
    simp only [hblock]
    rw [show KVs.cons k (trunc (r + 1) c) (truncK r rest) =
      (KVs.cons k (trunc (r + 1) c) KVs.nil).append (truncK r rest) from rfl]
    rw [← KVs.append_assoc]
    rw [ih hwfrest hnodrest (done.append (.cons k (trunc (r + 1) c) .nil)) ?hdisj2]
    case hdisj2 =>
      intro k2 hk2
      rw [KVs.hasKey_append]
      have hd2 : done.hasKey k2 = false := by
        apply hdisj k2
        rw [KVs.hasKey_cons]
        split
        · rfl
        · exact hk2
      have hs2 : (KVs.cons k (trunc (r + 1) c) KVs.nil).hasKey k2 = false := by
        rw [KVs.hasKey_cons]
        split
        · next heq => rw [← heq] at hk2; rw [hk2] at hkrest; exact hkrest
        · rfl
      rw [hd2, hs2]
      rfl
    rw [KVs.append_assoc]
    rfl

/-- Replaying the next row below a list refines every element from its
depth-`r` truncation to its depth-`r+1` truncation, one block per index. -/
theorem replayF_seq_sur (r : Nat)
    (hIH : ∀ c : Node, wf c = true →
      replayF (trunc r c) (emits (nodesAt (r + 1) [] c)) = .ok (trunc (r + 1) c)) :
    ∀ todo : Nodes, wfL todo = true →
      ∀ done : Nodes,
        replayF (.seq (done.append (truncL r todo)))
            (rowBlocksL (r + 1) done.length todo) =
          .ok (.seq (done.append (truncL (r + 1) todo))) := by
  intro todo
  induction todo using Nodes.nindOn with
  | nil =>
    intro _ done
    simp [rowBlocksL, replayF, truncL, Nodes.nappend_nil_right]
  | cons c rest ih =>
    intro hwfl done
    obtain ⟨hwfc, hwfrest⟩ : wf c = true ∧ wfL rest = true := by
      simpa [wfL, Bool.and_eq_true] using hwfl
    rw [rowBlocksL, replayF_append]
    rw [show truncL r (Nodes.cons c rest) = Nodes.cons (trunc r c) (truncL r rest)
      from rfl]
    have hget : (done.append (Nodes.cons (trunc r c) (truncL r rest))).get done.length =
        some (trunc r c) := Nodes.get_append_length done _ _
    have hblock : replayF (.seq (done.append (Nodes.cons (trunc r c) (truncL r rest))))
        (shiftE (Seg.i (done.length : Int)) (emits (nodesAt (r + 1) [] c))) =
        .ok (.seq (done.append (Nodes.cons (trunc (r + 1) c) (truncL r rest)))) := by
      rw [replayF_shift_seq done.length _ _ _ (emits_nodesAt_ne_nil r c) hget,
        hIH c hwfc]
      show Except.ok (Node.seq
        ((done.append (Nodes.cons (trunc r c) (truncL r rest))).set done.length
          (trunc (r + 1) c))) = _
      rw [Nodes.set_append_length]
    simp only [hblock]
    rw [show Nodes.cons (trunc (r + 1) c) (truncL r rest) =
      (Nodes.cons (trunc (r + 1) c) Nodes.nil).append (truncL r rest) from rfl]
    rw [← Nodes.nappend_assoc]
    have hlen2 : (done.append (Nodes.cons (trunc (r + 1) c) Nodes.nil)).length =
        done.length + 1 := by
      rw [Nodes.length_append]
      rfl
    rw [← hlen2, ih hwfrest (done.append (.cons (trunc (r + 1) c) .nil))]
    rw [Nodes.nappend_assoc]
    rfl

/-- Replaying the emitted entries of row `r+1` into the depth-`r` partial
tree yields the depth-`r+1` partial tree. -/
theorem row_replay : ∀ (r : Nat) (S : Node), wf S = true →
    replayF (trunc r S) (emits (nodesAt (r + 1) [] S)) = .ok (trunc (r + 1) S) := by
  intro r
  induction r with
  | zero =>
    intro S hwf
    cases S with
    | leaf v => rfl
    | map kvs =>
      rw [emits_nodesAt_map]
      exact replayF_map_ins kvs .nil (wf_map_nodup kvs hwf) (fun k _ => rfl)
    | seq xs =>
      rw [emits_nodesAt_seq]
      exact replayF_seq_ins xs .nil
  | succ r ih =>
    intro S hwf
    cases S with
    | leaf v => rfl
    | map kvs =>
      rw [emits_nodesAt_map]
      exact replayF_map_sur r ih kvs (wf_map_wfK kvs hwf) (wf_map_nodup kvs hwf)
        .nil (fun k _ => rfl)
    | seq xs =>
      rw [emits_nodesAt_seq]
      exact replayF_seq_sur r ih xs (wf_seq_wfL xs hwf) .nil

/-! ### Stabilization of the truncation and the full replay (C1) -/

theorem qsize_childrenAll (Q : List (List Seg × Node)) :
    qsize (childrenAll Q) + Q.length = qsize Q := by
  induction Q with
  | nil => rfl
  | cons e t ih =>
    rw [childrenAll_cons, qsize_append, qsize_cons, List.length_cons]
    have := nsize_childEntries e.2 e.1
    omega

/-- When a structure has no nodes at depth `r + 1`, its depth-`r` truncation
is the structure itself. -/
theorem trunc_of_nodesAt_nil : ∀ (r : Nat) (S : Node),
    nodesAt (r + 1) [] S = [] → trunc r S = S := by
  intro r
  induction r with
  | zero =>
    intro S h
    cases S with
    | leaf v => rfl
    | map kvs =>
      rw [nodesAt_one] at h
      cases kvs with
      | nil => rfl
      | cons k c rest => simp [childEntries, kvChildren] at h
    | seq xs =>
      rw [nodesAt_one] at h
      cases xs with
      | nil => rfl
      | cons x rest => simp [childEntries, seqChildren] at h
  | succ r ih =>
    intro S h
    cases S with
    | leaf v => rfl
    | map kvs =>
      have hcomp : ∀ e ∈ kvChildren [] kvs, nodesAt (r + 1) e.1 e.2 = [] := by
        intro e he
        simp only [nodesAt, List.flatten_eq_nil_iff] at h
        exact h _ (List.mem_map_of_mem _ he)
      show Node.map (truncK r kvs) = Node.map kvs
      congr 1
      have key : ∀ ys : KVs,
          (∀ e ∈ kvChildren [] ys, nodesAt (r + 1) e.1 e.2 = []) →
          truncK r ys = ys := by
        intro ys
        induction ys using KVs.indOn with
        | nil => intro _; rfl
        | cons k c rest ihk =>
          intro hcomp2
          have h1 : nodesAt (r + 1) [k] c = [] := by
            apply hcomp2 ([k], c)
            simp [kvChildren]
          have h2 : nodesAt (r + 1) [] c = [] := by
            rw [nodesAt_cons_path] at h1
            simpa [shiftE] using h1
          show KVs.cons k (trunc r c) (truncK r rest) = KVs.cons k c rest
          rw [ih c h2, ihk (fun e he => hcomp2 e
            (by simp only [kvChildren]; exact List.mem_cons_of_mem _ he))]
      exact key kvs hcomp
    | seq xs =>
      have hcomp : ∀ e ∈ seqChildren [] 0 xs, nodesAt (r + 1) e.1 e.2 = [] := by
        intro e he
        simp only [nodesAt, List.flatten_eq_nil_iff] at h
        exact h _ (List.mem_map_of_mem _ he)
      show Node.seq (truncL r xs) = Node.seq xs
      congr 1
      have key : ∀ (ys : Nodes) (start : Nat),
          (∀ e ∈ seqChildren [] start ys, nodesAt (r + 1) e.1 e.2 = []) →
          truncL r ys = ys := by
        intro ys
        induction ys using Nodes.nindOn with
        | nil => intro _ _; rfl
        | cons x rest ihk =>
          intro start hcomp2
          have h1 : nodesAt (r + 1) [Seg.i (start : Int)] x = [] := by
            apply hcomp2 ([Seg.i (start : Int)], x)
            simp [seqChildren]
          have h2 : nodesAt (r + 1) [] x = [] := by
            rw [nodesAt_cons_path] at h1
            simpa [shiftE] using h1
          show Nodes.cons (trunc r x) (truncL r rest) = Nodes.cons x rest
          rw [ih x h2, ihk (start + 1) (fun e he => hcomp2 e
            (by simp only [seqChildren]; exact List.mem_cons_of_mem _ he))]
      exact key xs 0 hcomp

/-- Replaying the breadth-first continuation from any row onwards into the
corresponding partial tree reconstructs the full structure. -/
theorem rows_replay : ∀ (fuel r : Nat) (S : Node), wf S = true →
    qsize (nodesAt (r + 1) [] S) ≤ fuel →
    replayF (trunc r S) (bfs false (nodesAt (r + 1) [] S)) = .ok S := by
  intro fuel
  induction fuel with
  | zero =>
    intro r S hwf h
    have hnil : nodesAt (r + 1) [] S = [] := qsize_eq_zero _ (by omega)
    rw [hnil, bfs_nil]
    simp only [replayF]
    rw [trunc_of_nodesAt_nil r S hnil]
  | succ f ih =>
    intro r S hwf h
    cases hq : nodesAt (r + 1) [] S with
    | nil =>
      rw [bfs_nil]
      simp only [replayF]
      rw [trunc_of_nodesAt_nil r S hq]
    | cons e t =>
      rw [bfs_row, replayF_append, ← hq, row_replay r S hwf, childrenAll_nodesAt]
      show replayF (trunc (r + 1) S) (bfs false (nodesAt (r + 1 + 1) [] S)) = .ok S
      apply ih (r + 1) S hwf
      have hca := qsize_childrenAll (nodesAt (r + 1) [] S)
      rw [childrenAll_nodesAt] at hca
      have hlen : 1 ≤ (nodesAt (r + 1) [] S).length := by
        rw [hq]
        simp
      omega

/-- C1 counterexample: the empty Mapping is falsy, so `flatten` yields no
entries and `unflatten` of the result returns `None`, not the empty Mapping:
the round trip is not lossless for empty containers (or falsy scalar roots
other than `None`). -/
theorem c1_counterexample :
    flatten (Node.map .nil) false = [] ∧
    unflatten (flatten (Node.map .nil) false) false = .ok (.leaf .none) ∧
    Node.leaf PrimVal.none ≠ Node.map .nil :=
  ⟨rfl, rfl, fun h => Node.noConfusion h⟩

/-- C1 amended: for every structure whose Mappings have duplicate-free keys
(automatic for Python dicts) and whose root is truthy (not an empty
container or falsy scalar), `unflatten(flatten(S))` reconstructs `S`
exactly. -/
theorem c1_round_trip (S : Node) (h1 : wf S = true) (h2 : falsy S = false) :
    unflatten (flatten S false) false = .ok S := by
  have hfl : flatten S false = bfs false [([], S)] := by simp [flatten, h2]
  cases S with
  | leaf v =>
    rw [hfl, bfs_leaf, bfs_nil]
    rfl
  | map kvs =>
    rw [hfl, bfs_map]
    show replay (Node.map .nil)
      (bfs false ([] ++ childEntries [] (Node.map kvs))) = .ok (Node.map kvs)
    rw [List.nil_append]
    rw [replay_eq_replayF _ _ ?hpaths]
    case hpaths =>
      exact bfsF_paths false (qsize (childEntries [] (Node.map kvs)))
        (childEntries [] (Node.map kvs)) (fun e0 he0 => by
          obtain ⟨k, hk⟩ := childEntries_path [] _ e0 he0
          rw [hk]
          simp)
    rw [← nodesAt_one]
    exact rows_replay (qsize (nodesAt 1 [] (Node.map kvs))) 0 (Node.map kvs)
      h1 le_rfl
  | seq xs =>
    rw [hfl, bfs_seq]
    show replay (Node.seq .nil)
      (bfs false ([] ++ childEntries [] (Node.seq xs))) = .ok (Node.seq xs)
    rw [List.nil_append]
    rw [replay_eq_replayF _ _ ?hpaths2]
    case hpaths2 =>
      exact bfsF_paths false (qsize (childEntries [] (Node.seq xs)))
        (childEntries [] (Node.seq xs)) (fun e0 he0 => by
          obtain ⟨k, hk⟩ := childEntries_path [] _ e0 he0
          rw [hk]
          simp)
    rw [← nodesAt_one]
    exact rows_replay (qsize (nodesAt 1 [] (Node.seq xs))) 0 (Node.seq xs)
      h1 le_rfl

/-- C1 witness: the docstring structure round-trips. -/
theorem c1_witness :
    wf exNested = true ∧ falsy exNested = false ∧
      unflatten (flatten exNested false) false = .ok exNested :=
  ⟨rfl, rfl, c1_round_trip exNested rfl rfl⟩

end DataTools
